import Mathlib

/-!
# Verification of the graphtik network compiler

A shallow embedding of `graphtik/network.py`, `graphtik/pipeline.py` and the
skip-evictions bit of `graphtik/config.py`: the dependency model, graph
builder, requirement collector, pruner, step sequencer and plan cache, with
theorems checking the specified properties against them.
-/

namespace Graphtik

/-- Modelled from the spec: `modifiers.py` is not part of the sources here;
the spec describes a dependency as a string identity plus a bitset of
modifiers (`optional`, `sideffect`, `keyword`); `jsonp` paths are the
`/`-separated segments of the name. -/
structure Dep where
  name : String
  optional : Bool := false
  sideffect : Bool := false
  keyword : Option String := none
deriving DecidableEq, Repr

/-- Modelled from the spec: a side-effect is a "virtual" name, a distinct
graph identity from the plain data name; other modifiers share the bare
name as graph identity. -/
def Dep.node (d : Dep) : String :=
  if d.sideffect then "sideffect(" ++ d.name ++ ")" else d.name

/-- Modelled from the spec: `is_optional` of `modifiers.py`. -/
def is_optional (d : Dep) : Bool := d.optional

/-- Modelled from the spec: `is_sfx` of `modifiers.py`. -/
def is_sfx (d : Dep) : Bool := d.sideffect

/-- Modelled from the spec: `optional()` of `modifiers.py` sets the
optional bit, keeping the rest of the modifiers. -/
def optional (d : Dep) : Dep := { d with optional := true }

/-- Modelled from the spec: `modifier_withset(data, optional=None,
keyword=False)` as called by `_optionalized`: clears the optional and
keyword modifiers. -/
def modifier_withset (d : Dep) : Dep := { d with optional := false, keyword := none }

/-- Split a char list on `/` (kernel-computable `splitOn "/"`). -/
def splitSlashAux : List Char → List (List Char)
  | [] => [[]]
  | c :: rest =>
    match splitSlashAux rest with
    | [] => [[]]
    | g :: gs => if c = '/' then [] :: g :: gs else (c :: g) :: gs

/-- `name.split("/")`: the `/`-separated segments of a name. -/
def splitSlash (s : String) : List String :=
  (splitSlashAux s.data).map (fun l => String.mk l)

/-- `"/".join(parts)`. -/
def joinSlash : List String → String
  | [] => ""
  | [s] => s
  | s :: rest => s ++ "/" ++ joinSlash rest

/-- Modelled from the spec: `get_jsonp` returns the `/`-separated path
segments of a hierarchical (sub-document) dependency name. -/
def get_jsonp (d : Dep) : Option (List String) :=
  if d.sideffect then none
  else
    let parts := splitSlash d.name
    if parts.length > 1 then some parts else none

/-- Modelled from the spec: an `Operation` record (`base.py` is not part of
the sources here): `name`, ordered `needs`, ordered `provides`, optional
`aliases` as `(src_provide, alias_name)` pairs. Operation identity is its
name. -/
structure Op where
  name : String
  needs : List Dep := []
  provides : List Dep := []
  aliases : List (String × String) := []
deriving DecidableEq, Repr

/-- Node names of an operation's declared needs. -/
def Op.needNodes (o : Op) : List String := o.needs.map Dep.node

/-- Node names of an operation's declared provides. -/
def Op.provideNodes (o : Op) : List String := o.provides.map Dep.node

/-- A network-graph node is either a data name or an operation record. -/
inductive Node where
  | data (name : String)
  | op (o : Op)
deriving DecidableEq, Repr

def Node.isOp : Node → Bool
  | .op _ => true
  | .data _ => false

def Node.isData : Node → Bool
  | .data _ => true
  | .op _ => false

/-- Edge attributes of the network graph (`optional`, `sideffect`,
`keyword` on need edges, `subdoc` on sub-document chain edges, `alias_of`
on aliased provide edges). -/
structure EdgeAttrs where
  optional : Bool := false
  sideffect : Bool := false
  keyword : Option String := none
  subdoc : Bool := false
  alias_of : Option String := none
deriving DecidableEq, Repr

/-- A directed graph in insertion order: nodes are unique, at most one edge
per (src, dst) pair, matching a `networkx.DiGraph`. -/
structure Graph where
  nodes : List Node := []
  edges : List (Node × Node × EdgeAttrs) := []
deriving DecidableEq, Repr

namespace Graph

def hasNode (g : Graph) (n : Node) : Bool := g.nodes.contains n

def hasDataNode (g : Graph) (d : String) : Bool := g.hasNode (Node.data d)

def hasEdge (g : Graph) (u v : Node) : Bool :=
  g.edges.any (fun e => e.1 = u ∧ e.2.1 = v)

/-- `networkx` `add_node`: a no-op when the node already exists. -/
def addNode (g : Graph) (n : Node) : Graph :=
  if g.hasNode n then g else { g with nodes := g.nodes ++ [n] }

/-- `networkx` `add_edge(u, v, **attrs)`: missing endpoints are added as
nodes; an existing edge has its attributes updated, a new edge is appended
with the update applied to default attributes. -/
def addEdgeWith (g : Graph) (u v : Node) (upd : EdgeAttrs → EdgeAttrs) : Graph :=
  let g := (g.addNode u).addNode v
  if g.hasEdge u v then
    { g with edges := g.edges.map (fun e =>
        if e.1 = u ∧ e.2.1 = v then (e.1, e.2.1, upd e.2.2) else e) }
  else
    { g with edges := g.edges ++ [(u, v, upd {})] }

def outEdges (g : Graph) (n : Node) : List (Node × Node × EdgeAttrs) :=
  g.edges.filter (fun e => e.1 = n)

def inEdges (g : Graph) (n : Node) : List (Node × Node × EdgeAttrs) :=
  g.edges.filter (fun e => e.2.1 = n)

/-- `dag.adj[n]` / `dag.successors(n)`. -/
def successors (g : Graph) (n : Node) : List Node :=
  (g.outEdges n).map (fun e => e.2.1)

/-- `dag.predecessors(n)`. -/
def predecessors (g : Graph) (n : Node) : List Node :=
  (g.inEdges n).map (fun e => e.1)

/-- `networkx` `remove_nodes_from`: removes the nodes and their incident
edges. -/
def removeNodes (g : Graph) (ns : List Node) : Graph :=
  { nodes := g.nodes.filter (fun n => ¬ ns.contains n)
    edges := g.edges.filter (fun e => ¬ ns.contains e.1 ∧ ¬ ns.contains e.2.1) }

/-- `networkx` `remove_edges_from` on (src, dst) pairs. -/
def removeEdges (g : Graph) (es : List (Node × Node)) : Graph :=
  { g with edges := g.edges.filter (fun e => ¬ es.contains (e.1, e.2.1)) }

/-- `networkx` `G.subgraph(s)`: the induced subgraph, iterating nodes in
the parent graph's order. -/
def subgraphF (g : Graph) (s : Finset Node) : Graph :=
  { nodes := g.nodes.filter (fun n => n ∈ s)
    edges := g.edges.filter (fun e => e.1 ∈ s ∧ e.2.1 ∈ s) }

/-- A node with no incident edge, as `networkx.isolates`. -/
def isIsolate (g : Graph) (n : Node) : Bool :=
  ¬ g.edges.any (fun e => e.1 = n ∨ e.2.1 = n)

/-- Drop isolated nodes (`pruned_dag.remove_nodes_from(nx.isolates(...))`);
isolated nodes carry no edges, so the edge list is unchanged. -/
def removeIsolates (g : Graph) : Graph :=
  { g with nodes := g.nodes.filter (fun n => ¬ g.isIsolate n) }

/-- The set of operation records appearing as nodes (`yield_ops`). -/
def opNodes (g : Graph) : List Op :=
  g.nodes.filterMap (fun n => match n with | .op o => some o | .data _ => none)

end Graph

/-! ## Graph builder: `Network._append_operation` -/

/-- State while appending one operation: the graph plus the
`seen_doc_edges` set shared between the needs and provides phases. -/
structure ApSt where
  g : Graph
  seen : List (String × String) := []

def pairwiseL (l : List String) : List (String × String) := l.zip l.tail

/-- `append_subdoc_chain`: materialize the `/`-path prefixes, then walk the
prefix edges from leaf to root, stopping at the first already-seen edge,
adding the new ones (leaf-first) with `subdoc=true`. -/
def appendSubdocChain (st : ApSt) (parts : List String) : ApSt :=
  let chain := (List.range parts.length).map
    (fun i => joinSlash (parts.take (i + 1)))
  let rps := (pairwiseL chain).reverse
  let newEdges := rps.takeWhile (fun e => ¬ st.seen.contains e)
  let g := newEdges.foldl (fun g e =>
    g.addEdgeWith (Node.data e.1) (Node.data e.2)
      (fun a => { a with subdoc := true })) st.g
  { g := g, seen := st.seen ++ newEdges }

/-- The inverse-aliases index `{alias → source}` (a mapping, so the last
pair for an alias wins). -/
def aliasSrc (aliases : List (String × String)) (p : String) : Option String :=
  (aliases.reverse.find? (fun a => a.2 = p)).map (·.1)

/-- One iteration of the needs loop, subdoc-chain part. -/
def needChainStep (st : ApSt) (n : Dep) : ApSt :=
  match get_jsonp n with
  | some parts => appendSubdocChain st parts
  | none => st

/-- The `ekw` attributes of a need edge (`optional` / `sideffect` /
`keyword`, merged into existing attributes as `add_edge` does). -/
def needEdgeUpd (n : Dep) (a : EdgeAttrs) : EdgeAttrs :=
  let a := if is_optional n then { a with optional := true } else a
  let a := if is_sfx n then { a with sideffect := true } else a
  match n.keyword with
  | some k => { a with keyword := some k }
  | none => a

/-- Add one need edge `n → operation`. -/
def needEdgeStep (operation : Op) (g : Graph) (n : Dep) : Graph :=
  g.addEdgeWith (Node.data n.node) (Node.op operation) (needEdgeUpd n)

/-- The attributes of a provide edge (`sideffect` / `alias_of`). -/
def provideUpd (operation : Op) (p : Dep) (a : EdgeAttrs) : EdgeAttrs :=
  let a := if is_sfx p then { a with sideffect := true } else a
  match aliasSrc operation.aliases p.node with
  | some src => { a with alias_of := some src }
  | none => a

/-- One iteration of the provides loop: subdoc chain, side-effect node,
provide edge. -/
def provideStep (operation : Op) (st : ApSt) (p : Dep) : ApSt :=
  let st :=
    match get_jsonp p with
    | some parts => appendSubdocChain st parts
    | none => st
  let g := if is_sfx p then st.g.addNode (Node.data p.node) else st.g
  { st with g := (g.addEdgeWith (Node.op operation) (Node.data p.node) (provideUpd operation p)) }

/-- `Network._append_operation`: add subdoc chains and data nodes for the
needs, then the operation node, then the need edges; then for each provide
its chain, its (side-effect) node and the provide edge with `sideffect` /
`alias_of` attributes (`seen_doc_edges` is shared across both phases). -/
def _append_operation (g0 : Graph) (operation : Op) : Graph :=
  let st := operation.needs.foldl needChainStep ⟨g0, []⟩
  let g := operation.needs.foldl (fun g n => g.addNode (Node.data n.node)) st.g
  let g := g.addNode (Node.op operation)
  let g := operation.needs.foldl (needEdgeStep operation) g
  (operation.provides.foldl (provideStep operation) { st with g := g }).g

/-- The network graph built by adding the operations in order. -/
def buildGraph (ops : List Op) : Graph :=
  ops.foldl _append_operation {}

/-! ## Requirement collector: `_optionalized` / `collect_requirements` -/

/-- `_optionalized`: retain optionality of a data node based on all its
`needs` edges (`all` of an empty edge list is true). -/
def _optionalized (g : Graph) (d : Dep) : Dep :=
  let all_optionals := (g.outEdges (Node.data d.node)).all (fun e => e.2.2.optional)
  if all_optionals then optional d
  else if is_sfx d then d
  else modifier_withset d

/-- An `IndexedSet` de-duplication of deps: insertion order, by graph node
identity, the earlier entry winning. -/
def dedupByNode (l : List Dep) : List Dep :=
  l.foldl (fun acc d =>
    if acc.any (fun e => e.node = d.node) then acc else acc ++ [d]) []

/-- `collect_requirements`: aggregate needs (optionality folded) and
provides of all operation nodes. -/
def collect_requirements (g : Graph) : List Dep × List Dep :=
  let operations := g.opNodes
  let provides := dedupByNode (operations.flatMap (·.provides))
  let needs := dedupByNode ((operations.flatMap (·.needs)).map (_optionalized g))
  (needs, provides)

/-! ## Sub-document chains: `root_doc` and the chained-docs traversals -/

/-- `root_doc`: walk the subdoc in-edges of `doc` (a single scan of the
in-edge list, keeping the last subdoc parent), or `doc` itself. -/
def root_doc (g : Graph) (doc : String) : String :=
  (g.inEdges (Node.data doc)).foldl (fun acc e =>
    if e.2.2.subdoc then
      match e.1 with
      | .data s => s
      | .op _ => acc
    else acc) doc

/-- A chained-docs dig direction: `("out_edges", 1)` descends to subdocs,
`("in_edges", 0)` ascends to superdocs. -/
inductive Dig where
  | down
  | up
deriving DecidableEq, Repr

def bothDirs : List Dig := [.down, .up]

/-- The subdoc-linked neighbours of `doc` in one direction. -/
def digNext (g : Graph) (dir : Dig) (doc : String) : List String :=
  match dir with
  | .down => (g.outEdges (Node.data doc)).filterMap (fun e =>
      if e.2.2.subdoc then
        match e.2.1 with | .data c => some c | .op _ => none
      else none)
  | .up => (g.inEdges (Node.data doc)).filterMap (fun e =>
      if e.2.2.subdoc then
        match e.1 with | .data c => some c | .op _ => none
      else none)

/-- `_yield_also_chained_docs` with an empty `stop_set`: the doc itself and
everything reachable along subdoc edges, each direction explored without
turning back. Fuel bounds the recursion depth (call sites pass more fuel
than any simple subdoc path can use). -/
def chainNoStop (fuel : Nat) (g : Graph) (dirs : List Dig) (doc : String) : List String :=
  match fuel with
  | 0 => []
  | fuel + 1 =>
    if ¬ g.hasDataNode doc then []
    else
      doc :: dirs.flatMap (fun dir =>
        (digNext g dir doc).flatMap (fun c => chainNoStop fuel g [dir] c))

/-- `_yield_also_chained_docs` consumed into its own live `stop_set` (as in
`ok_data.update(yield_chaindocs(dag, docs, ok_data))`): each yielded doc is
added to the set before the traversal continues, so visited docs stop the
recursion. -/
def chainLive (fuel : Nat) (g : Graph) (dirs : List Dig) (acc : Finset String)
    (doc : String) : Finset String :=
  match fuel with
  | 0 => acc
  | fuel + 1 =>
    if ¬ g.hasDataNode doc then acc
    else if doc ∈ acc then acc
    else
      let acc := insert doc acc
      dirs.foldl (fun acc dir =>
        (digNext g dir doc).foldl (fun acc c => chainLive fuel g [dir] acc c) acc) acc

/-- `_yield_chained_docs` over many docs, live stop-set variant. -/
def chainLiveMany (fuel : Nat) (g : Graph) (dirs : List Dig) (acc : Finset String)
    (docs : List String) : Finset String :=
  docs.foldl (chainLive fuel g dirs) acc

/-! ## Pruning: `unsatisfied_operations` -/

/-- The compulsory needs of a node: sources of its non-optional in-edges. -/
def realNeeds (g : Graph) (node : Node) : Finset String :=
  ((g.inEdges node).filterMap (fun e =>
    if e.2.2.optional then none
    else match e.1 with | .data s => some s | .op _ => none)).toFinset

/-- Data-node successors (`dag.adj[node]`, by name). -/
def dataSuccessors (g : Graph) (n : Node) : List String :=
  (g.successors n).filterMap (fun m =>
    match m with | .data s => some s | .op _ => none)

/-- State of the unsatisfied-operations pass: produced data, the map of
operations to satisfied needs, and the operations to drop. -/
structure USt where
  ok : Finset String
  sat : Node → Finset String
  unsat : List Node

/-- One visit of the topological pass of `unsatisfied_operations`: an
operation with no outgoing edges left, or whose compulsory needs are not
all satisfied, is appended to `unsat`; a satisfied operation adds its
provides and their chains to `ok`; a produced data node marks itself as a
satisfied need on its consumers. -/
def visitNode (g : Graph) (st : USt) (node : Node) : USt :=
  match node with
  | .op _ =>
    if (g.successors node).isEmpty then
      { st with unsat := st.unsat ++ [node] }
    else if realNeeds g node ⊆ st.sat node then
      { st with ok := chainLiveMany (g.nodes.length + 1) g bothDirs st.ok (dataSuccessors g node) }
    else
      { st with unsat := st.unsat ++ [node] }
  | .data d =>
    if d ∈ st.ok then
      { st with sat := fun m =>
          if (g.successors (Node.data d)).contains m then insert d (st.sat m)
          else st.sat m }
    else st

/-- `nx.topological_generations`-style topological order: emit, generation
by generation, the remaining nodes with no incoming edge from the
remaining set. Each non-empty generation removes at least one node, so
fuel equal to the node count never truncates. -/
def topoGens (g : Graph) : Nat → List Node → List Node
  | 0, _ => []
  | fuel + 1, rem =>
    let gen := rem.filter (fun v => ¬ rem.any (fun u => g.hasEdge u v))
    if gen.isEmpty then []
    else gen ++ topoGens g fuel (rem.filter (fun v => ¬ gen.contains v))

/-- `nx.topological_sort` of the broken dag. -/
def topological_sort (g : Graph) : List Node := topoGens g g.nodes.length g.nodes

/-- `unsatisfied_operations(dag, inputs)`. -/
def unsatisfied_operations (dag : Graph) (inputs : List String) : List Node :=
  let ok := chainLiveMany (dag.nodes.length + 1) dag bothDirs ∅ inputs
  let st : USt := ⟨ok, fun _ => ∅, []⟩
  ((topological_sort dag).foldl (visitNode dag) st).unsat

/-! ## Pruning: `_prune_graph` -/

/-- One saturation step towards the predecessor closure. -/
def predStep (g : Graph) (S : Finset Node) : Finset Node :=
  S ∪ (g.nodes.filter (fun u => g.edges.any (fun e => e.1 = u ∧ e.2.1 ∈ S))).toFinset

/-- `nx.ancestors(g, w)` plus `w` itself: all nodes with a path to `w`,
computed by saturating the predecessor step (the caller adds `w` anyway,
so including it is equivalent). -/
def ancestors (g : Graph) (w : Node) : Finset Node :=
  (predStep g)^[g.nodes.length] {w}

/-- One doc of the `ending_in_outputs` loop: the chained-docs generator is
consumed while `ending` (its own stop-set) is extended with the ancestors
of each yielded doc, so the traversal sees the live set. -/
def endingVisit (fuel : Nat) (g : Graph) (dirs : List Dig) (E : Finset Node)
    (doc : String) : Finset Node :=
  match fuel with
  | 0 => E
  | fuel + 1 =>
    if ¬ g.hasDataNode doc then E
    else if Node.data doc ∈ E then E
    else
      let E := (E ∪ ancestors g (Node.data doc)) ∪ {Node.data doc}
      dirs.foldl (fun E dir =>
        (digNext g dir doc).foldl (fun E c => endingVisit fuel g [dir] E c) E) E

/-- The `ending_in_outputs` set of `_prune_graph`. -/
def endingInOutputs (g : Graph) (outs : List String) : Finset Node :=
  outs.foldl (fun E doc => endingVisit (g.nodes.length + 1) g bothDirs E doc) ∅

/-- Errors surfaced by the core. -/
inductive NetErr where
  | duplicateOps (dupes : List String)
  | unknownOutputs (names : List String)
deriving DecidableEq, Repr

/-- The exception message (`ValueError` text) of each error. -/
def NetErr.message : NetErr → String
  | .duplicateOps ds => "Operations may only be added once, dupes: " ++ toString ds
  | .unknownOutputs ns => "Unknown output nodes: " ++ toString ns

/-- A plan step: an operation to run, or an eviction instruction for a
data name. -/
inductive Step where
  | op (o : Op)
  | evict (d : String)
deriving DecidableEq, Repr

def Step.isOp : Step → Bool
  | .op _ => true
  | .evict _ => false

/-- `ExecutionPlan`: the compiled needs/provides, the pruned dag, the
ordered steps and whether outputs were asked. -/
structure ExecutionPlan where
  needs : List Dep
  provides : List Dep
  dag : Graph
  steps : List Step
  asked_outs : Bool
deriving DecidableEq, Repr

/-- A compile cache key: normalized inputs and outputs, plus the predicate
identity. -/
abbrev CacheKey := Option (List String) × Option (List String) × Option Nat

/-- A node predicate with its (object) identity used for cache keying. -/
abbrev NodePred := Nat × (Op → Bool)

/-- `Network`: the built graph, the aggregate needs/provides and the plan
cache. -/
structure Network where
  graph : Graph
  needs : List Dep
  provides : List Dep
  cache : List (CacheKey × ExecutionPlan) := []

/-- The extra occurrences removed by `dupes.remove(i)` for each unique
operation: every operation whose name already occurred earlier. -/
def dupOpsAux : List Op → List String → List Op
  | [], _ => []
  | o :: rest, seen =>
    if seen.contains o.name then o :: dupOpsAux rest seen
    else dupOpsAux rest (o.name :: seen)

/-- `Network.__init__`: reject duplicate operations (identity is the
name), build the graph by appending each operation, and collect the
aggregate needs/provides. -/
def Network.make (operations : List Op) : Except NetErr Network :=
  if (operations.map Op.name).Nodup then
    let graph := buildGraph operations
    let np := collect_requirements graph
    .ok { graph := graph, needs := np.1, provides := np.2, cache := [] }
  else
    .error (.duplicateOps ((dupOpsAux operations []).map Op.name))

/-- Keep-first de-duplication of strings (an `IndexedSet` of names). -/
def dedupStr (l : List String) : List String :=
  l.foldl (fun acc s => if acc.contains s then acc else acc ++ [s]) []

/-- `_apply_graph_predicate`: drop operation nodes for which the predicate
is false. -/
def _apply_graph_predicate (g : Graph) (p : Op → Bool) : Graph :=
  g.removeNodes (g.opNodes.filterMap (fun o =>
    if p o then none else some (Node.op o)))

/-- The `broken_dag` after the predicate pass. -/
def brokenPredicated (net : Network) (predicate : Option NodePred) : Graph :=
  match predicate with
  | some p => _apply_graph_predicate net.graph p.2
  | none => net.graph

/-- The `broken_dag` after also breaking the incoming non-subdoc edges of
every given input. -/
def brokenInputs (net : Network) (predicate : Option NodePred)
    (insF : Option (List String)) : Graph :=
  match insF with
  | some ins => ins.foldl (fun g n =>
      g.removeEdges ((g.inEdges (Node.data n)).filterMap (fun e =>
        if e.2.2.subdoc then none else some (e.1, e.2.1)))) (brokenPredicated net predicate)
  | none => brokenPredicated net predicate

/-- The `broken_dag` after restricting to the nodes ending in the asked
outputs (when outputs are known). -/
def brokenDag3 (net : Network) (predicate : Option NodePred)
    (insF : Option (List String)) (outsD : Option (List Dep)) : Graph :=
  match outsD with
  | some outs => Graph.subgraphF (brokenInputs net predicate insF)
      (endingInOutputs net.graph (outs.map Dep.node))
  | none => brokenInputs net predicate insF

/-- The surviving node set `broken_dag.nodes - unsatisfied`. -/
def pruneS (net : Network) (predicate : Option NodePred)
    (satisfied_inputs : List Dep) (outsD : Option (List Dep))
    (insF : Option (List String)) : Finset Node :=
  (brokenDag3 net predicate insF outsD).nodes.toFinset \
    (unsatisfied_operations (brokenDag3 net predicate insF outsD)
      (satisfied_inputs.map Dep.node)).toFinset

/-- The plan's pruned dag: the original dag on the surviving nodes, with
isolated nodes dropped. -/
def prunedDagOf (net : Network) (predicate : Option NodePred)
    (satisfied_inputs : List Dep) (outsD : Option (List Dep))
    (insF : Option (List String)) : Graph :=
  (net.graph.subgraphF (pruneS net predicate satisfied_inputs outsD insF)).removeIsolates

/-- The pruning pipeline after input/output resolution: apply the
predicate, break the incoming non-subdoc edges of given inputs, restrict to
the nodes ending in the outputs, drop unsatisfied operations and isolated
data, and resolve the plan's needs/provides. -/
def pruneCore (net : Network) (predicate : Option NodePred)
    (satisfied_inputs : List Dep) (outsD : Option (List Dep))
    (insF : Option (List String)) : Graph × List Dep × List Dep :=
  let pruned := prunedDagOf net predicate satisfied_inputs outsD insF
  let needsR := dedupByNode
    ((satisfied_inputs.filter (fun d => pruned.hasDataNode d.node)).map (_optionalized pruned))
  let provR :=
    match outsD with
    | none => dedupByNode (net.provides.filter (fun n =>
        (¬ needsR.any (fun m => m.node = n.node)) ∧ pruned.hasDataNode n.node ∧ ¬ is_sfx n))
    | some outs => dedupByNode (outs.filter (fun n => pruned.hasDataNode n.node))
  (pruned, needsR, provR)

/-- `Network._prune_graph(inputs, outputs, predicate)`: resolve the
satisfied inputs and working outputs, fail on unknown outputs, then run the
pruning pipeline. -/
def pruneGraph (net : Network) (inputs outputs : Option (List String))
    (predicate : Option NodePred) : Except NetErr (Graph × List Dep × List Dep) :=
  let dag := net.graph
  match inputs, outputs with
  | none, none => .ok (pruneCore net predicate net.needs (some net.provides) none)
  | _, _ =>
    let satisfied_inputs : List Dep :=
      match inputs with
      | none => net.needs.filter (fun d => ¬ (outputs.getD []).contains d.node)
      | some ins => ((dedupStr ins).filter dag.hasDataNode).map (fun s => { name := s })
    let insF : Option (List String) :=
      inputs.map (fun ins => (dedupStr ins).filter dag.hasDataNode)
    let outsD : Option (List Dep) :=
      outputs.map (List.map (fun s => { name := s }))
    match outputs with
    | some outs =>
      if outs ≠ [] then
        let unknown := (dedupStr outs).filter (fun s => ¬ dag.hasDataNode s)
        if unknown ≠ [] then .error (.unknownOutputs unknown)
        else .ok (pruneCore net predicate satisfied_inputs outsD insF)
      else .ok (pruneCore net predicate satisfied_inputs outsD insF)
    | none => .ok (pruneCore net predicate satisfied_inputs outsD insF)

/-! ## Step sequencer: `_topo_sort_nodes` / `_build_execution_steps` -/

/-- The first remaining node with no incoming edge from the remaining set:
with `rem` kept in graph insertion order, this is the ready node of
minimal insertion key, as in `nx.lexicographical_topological_sort` keyed
by insertion index. -/
def pickSource (g : Graph) (rem : List Node) : Option Node :=
  rem.find? (fun v => ¬ rem.any (fun u => g.hasEdge u v))

/-- Kahn's algorithm emitting, at each step, the ready node earliest in
insertion order; stops early if no node is ready (a cycle). Each step
removes the emitted node, so fuel equal to the node count never
truncates. -/
def topoAux (g : Graph) : Nat → List Node → List Node
  | 0, _ => []
  | fuel + 1, rem =>
    match pickSource g rem with
    | none => []
    | some v => v :: topoAux g fuel (rem.erase v)

/-- `Network._topo_sort_nodes`: topo-sort by execution order, breaking
ties by operation-insertion order. -/
def _topo_sort_nodes (g : Graph) : List Node := topoAux g g.nodes.length g.nodes

/-- `add_eviction`: append an eviction step, unless the previous step
would evict the same name (warn-and-skip of consecutive duplicates). -/
def addEviction (steps : List Step) (dep : String) : List Step :=
  match steps.getLast? with
  | some (Step.evict d) => if d = dep then steps else steps ++ [Step.evict dep]
  | _ => steps ++ [Step.evict dep]

/-- The body of the `_build_execution_steps` loop over the ordered nodes:
emit each operation, then its rule-E1 evictions (needs whose chains are
neither asked outputs nor used by future nodes) and its rule-E2 evictions
(provides pruned out of the plan dag), both targeted at `root_doc`. -/
def stepsLoop (net : Network) (pruned : Graph) (outputsC : List String) :
    List Node → List Step → List Step
  | [], acc => acc
  | node :: rest, acc =>
    match node with
    | .data _ => stepsLoop net pruned outputsC rest acc
    | .op o =>
      let acc := acc ++ [Step.op o]
      let acc := (pruned.predecessors (Node.op o)).foldl (fun acc need =>
        match need with
        | .op _ => acc
        | .data nd =>
          let need_chain := chainNoStop (pruned.nodes.length + 1) pruned bothDirs nd
          if need_chain.any (fun c => outputsC.contains c) then acc
          else
            let need_users := need_chain.flatMap (fun n =>
              (pruned.outEdges (Node.data n)).filterMap (fun e =>
                if e.2.2.subdoc then none else some e.2.1))
            if need_users.any (fun u => rest.contains u) then acc
            else addEviction acc (root_doc pruned nd)) acc
      let acc := (net.graph.successors (Node.op o)).foldl (fun acc provide =>
        match provide with
        | .op _ => acc
        | .data pd =>
          if pruned.hasDataNode pd then acc
          else addEviction acc (root_doc pruned pd)) acc
      stepsLoop net pruned outputsC rest acc

/-- `Network._build_execution_steps(pruned_dag, inputs, outputs)`: with no
asked outputs or evictions skipped, just the operations in order;
otherwise operations interleaved with eviction instructions. -/
def _build_execution_steps (net : Network) (skipEvictions : Bool)
    (pruned : Graph) (outputs : List String) : List Step :=
  let ordered := _topo_sort_nodes pruned
  if outputs.isEmpty || skipEvictions then
    ordered.filterMap (fun n =>
      match n with | .op o => some (Step.op o) | .data _ => none)
  else
    let outputsC := outputs.flatMap (chainNoStop (pruned.nodes.length + 1) pruned bothDirs)
    stepsLoop net pruned outputsC ordered []

/-! ## Plan cache: `Network.compile` -/

/-- Code-point lexicographic order on char lists, as Python compares
strings (and as Lean's `String` order). -/
def charsLe : List Char → List Char → Bool
  | [], _ => true
  | _ :: _, [] => false
  | c :: cs, d :: ds => if c = d then charsLe cs ds else decide (c < d)

/-- Lexicographic `<=` on strings. -/
def strLe (a b : String) : Bool := charsLe a.data b.data

/-- Insert into a lexicographically sorted list. -/
def insertSorted (s : String) : List String → List String
  | [] => [s]
  | t :: rest => if strLe s t then s :: t :: rest else t :: insertSorted s rest

/-- `sorted(...)` on the names of a compile key (insertion sort; `≤` on
strings is total and antisymmetric, so this is the unique sorted
permutation that `sorted` returns). -/
def sortStrings (l : List String) : List String :=
  l.foldr insertSorted []

/-- `Network.compile(inputs, outputs, predicate)`: normalize the cache
key, return the cached plan on a hit, else prune, build the steps and
cache the fresh plan. The global skip-evictions bit is passed explicitly.
Returns the result together with the (possibly cache-extended) network. -/
def Network.compile (net : Network) (skipEvictions : Bool)
    (inputs outputs : Option (List String)) (predicate : Option NodePred) :
    Except NetErr ExecutionPlan × Network :=
  let inputs := inputs.map sortStrings
  let outputs := outputs.map sortStrings
  let key : CacheKey := (inputs, outputs, predicate.map (·.1))
  match (net.cache.find? (fun kv => kv.1 = key)).map (·.2) with
  | some plan => (.ok plan, net)
  | none =>
    match pruneGraph net inputs outputs predicate with
    | .error e => (.error e, net)
    | .ok (pdag, needsR, provR) =>
      let steps := _build_execution_steps net skipEvictions pdag (outputs.getD [])
      let plan : ExecutionPlan :=
        ⟨needsR, provR, pdag, steps, outputs.isSome⟩
      (.ok plan, { net with cache := (key, plan) :: net.cache })

/-! ## Pipeline composer: `build_network` of `pipeline.py` -/

/-- A member of a pipeline's operation list: a real operation or the
`NULL_OP` sentinel (which compares equal to same-named operations). -/
inductive MOp where
  | op (o : Op)
  | nullOp (name : String)
deriving DecidableEq, Repr

def MOp.name : MOp → String
  | .op o => o.name
  | .nullOp n => n

def MOp.isNull : MOp → Bool
  | .op _ => false
  | .nullOp _ => true

/-- The `merge_set` accumulation of `build_network`: an insertion-ordered
set keyed by operation name, earlier entries winning over later
same-named ones. -/
def mergeAccum (ops : List MOp) : List MOp :=
  ops.foldl (fun acc o =>
    if acc.any (fun e => e.name = o.name) then acc else acc ++ [o]) []

/-- `build_network` (with no pipeline-wide props or renamer): merge the
flattened member operations, drop the `NULL_OP` sentinels, and build the
`Network`. -/
def build_network (operations : List MOp) : Except NetErr Network :=
  let merge_set := (mergeAccum operations).filter (fun o => ¬ o.isNull)
  Network.make (merge_set.filterMap (fun o =>
    match o with | .op o => some o | .nullOp _ => none))

/-! ## Basic lemmas -/

/-- The empty graph. -/
def emptyGraph : Graph := ⟨[], []⟩

theorem hasDataNode_empty (d : String) : emptyGraph.hasDataNode d = false := rfl

theorem subgraphF_empty (g : Graph) : g.subgraphF ∅ = emptyGraph := by
  simp [Graph.subgraphF, emptyGraph, List.filter_eq_nil_iff]

theorem chainLive_empty (fuel : Nat) (dirs : List Dig) (acc : Finset String) (doc : String) :
    chainLive fuel emptyGraph dirs acc doc = acc := by
  cases fuel with
  | zero => rfl
  | succ n => simp [chainLive, hasDataNode_empty]

theorem chainLiveMany_empty (fuel : Nat) (dirs : List Dig) (acc : Finset String)
    (docs : List String) : chainLiveMany fuel emptyGraph dirs acc docs = acc := by
  induction docs generalizing acc with
  | nil => rfl
  | cons d rest ih =>
    unfold chainLiveMany at ih ⊢
    rw [List.foldl_cons, chainLive_empty]
    exact ih acc

theorem topological_sort_empty : topological_sort emptyGraph = [] := rfl

theorem unsatisfied_operations_empty (inputs : List String) :
    unsatisfied_operations emptyGraph inputs = [] := by
  unfold unsatisfied_operations
  rw [topological_sort_empty]
  rfl

theorem removeIsolates_empty : emptyGraph.removeIsolates = emptyGraph := rfl

theorem endingInOutputs_nil (g : Graph) : endingInOutputs g [] = ∅ := rfl

/-- Pruning with an explicitly empty outputs collection yields the empty
dag and empty needs/provides, whatever the inputs and predicate. -/
theorem pruneGraph_empty_outputs (net : Network) (i : Option (List String))
    (p : Option NodePred) : pruneGraph net i (some []) p = .ok (emptyGraph, [], []) := by
  have hcore : ∀ (sat : List Dep) (insF : Option (List String)),
      pruneCore net p sat (some []) insF = (emptyGraph, [], []) := by
    intro sat insF
    have hd3 : brokenDag3 net p insF (some []) = emptyGraph := by
      unfold brokenDag3
      dsimp only
      rw [show (([] : List Dep).map Dep.node) = [] from rfl, endingInOutputs_nil,
        subgraphF_empty]
    have hP : prunedDagOf net p sat (some []) insF = emptyGraph := by
      unfold prunedDagOf pruneS
      rw [hd3, unsatisfied_operations_empty,
        show (emptyGraph.nodes.toFinset \ ([] : List Node).toFinset) = ∅ from rfl,
        subgraphF_empty, removeIsolates_empty]
    unfold pruneCore
    rw [hP]
    simp [hasDataNode_empty, dedupByNode]
  cases i with
  | none =>
    unfold pruneGraph
    dsimp only
    rw [if_neg (by simp)]
    exact congrArg Except.ok (hcore _ _)
  | some ins =>
    unfold pruneGraph
    dsimp only
    rw [if_neg (by simp)]
    exact congrArg Except.ok (hcore _ _)

theorem sortStrings_nil : sortStrings [] = [] := rfl

theorem filterMap_stepOp_all_isOp (l : List Node) :
    (l.filterMap (fun n =>
      match n with | .op o => some (Step.op o) | .data _ => none)).all Step.isOp = true := by
  induction l with
  | nil => rfl
  | cons n rest ih => cases n <;> simpa [Step.isOp] using ih

/-! ## Claim theorems -/

/-- C9: `compile` (its pruning and step-building included) never mutates
the network: graph, needs and provides are identical before and after, for
any inputs, outputs and predicate. -/
theorem compile_frame (net : Network) (se : Bool) (i o : Option (List String))
    (p : Option NodePred) :
    (net.compile se i o p).2.graph = net.graph ∧
    (net.compile se i o p).2.needs = net.needs ∧
    (net.compile se i o p).2.provides = net.provides := by
  refine ⟨?_, ?_, ?_⟩
  all_goals
    unfold Network.compile
    dsimp only
    split
    · rfl
    · split <;> rfl

/-- C5: with absent or empty outputs, or the skip-evictions bit set, a
freshly compiled plan's steps are operations only (no `Evict`). -/
theorem compile_no_evictions (net : Network) (se : Bool) (i o : Option (List String))
    (p : Option NodePred) (plan : ExecutionPlan)
    (hmiss : (net.cache.find? (fun kv =>
      kv.1 = (i.map sortStrings, o.map sortStrings, p.map (·.1)))) = none)
    (hcase : o = none ∨ o = some [] ∨ se = true)
    (hok : (net.compile se i o p).1 = .ok plan) :
    plan.steps.all Step.isOp = true := by
  have hempty : (o.map sortStrings).getD [] = [] ∨ se = true := by
    rcases hcase with h | h | h
    · subst h; exact Or.inl rfl
    · subst h; exact Or.inl rfl
    · exact Or.inr h
  unfold Network.compile at hok
  dsimp only at hok
  rw [hmiss] at hok
  split at hok
  · rename_i plan' heq
    simp at heq
  split at hok
  · simp at hok
  · injection hok with h
    subst h
    show (_build_execution_steps net se _ ((o.map sortStrings).getD [])).all Step.isOp = true
    unfold _build_execution_steps
    have hbr : (((o.map sortStrings).getD []).isEmpty || se) = true := by
      rcases hempty with h | h
      · simp [h]
      · simp [h]
    rw [if_pos hbr]
    exact filterMap_stepOp_all_isOp _

/-- C5 witness. -/
theorem compile_no_evictions_witness :
    ∃ plan, (Network.compile { graph := emptyGraph, needs := [], provides := [] }
        true none none none).1 = .ok plan ∧ plan.steps.all Step.isOp = true := by
  refine ⟨⟨[], [], emptyGraph, [], false⟩, rfl, ?_⟩
  exact compile_no_evictions { graph := emptyGraph, needs := [], provides := [] }
    true none none none _ rfl (Or.inr (Or.inr rfl)) rfl

/-- C10: compiling with an explicitly empty outputs collection raises no
error and returns the empty plan: empty pruned dag, empty needs, provides
and steps, with `asked_outs` recorded true. -/
theorem compile_empty_outputs (net : Network) (se : Bool) (i : Option (List String))
    (p : Option NodePred)
    (hmiss : (net.cache.find? (fun kv =>
      kv.1 = (i.map sortStrings, some [], p.map (·.1)))) = none) :
    (net.compile se i (some []) p).1 = .ok ⟨[], [], emptyGraph, [], true⟩ := by
  unfold Network.compile
  dsimp only
  simp only [show (some [] : Option (List String)).map sortStrings = some [] from rfl]
  rw [hmiss]
  rw [show (Option.map (fun (x : CacheKey × ExecutionPlan) => x.2) none) = none from rfl]
  rw [pruneGraph_empty_outputs]
  rfl

/-- C10 witness. -/
theorem compile_empty_outputs_witness :
    (Network.compile { graph := emptyGraph, needs := [], provides := [] }
      false none (some []) none).1 = .ok ⟨[], [], emptyGraph, [], true⟩ :=
  compile_empty_outputs _ false none none rfl

theorem mem_insertSorted (a s : String) (l : List String) :
    a ∈ insertSorted s l ↔ a = s ∨ a ∈ l := by
  induction l with
  | nil => simp [insertSorted]
  | cons t rest ih =>
    by_cases h : strLe s t = true
    · simp [insertSorted, h]
    · simp [insertSorted, h, ih]
      tauto

theorem mem_sortStrings (a : String) (l : List String) :
    a ∈ sortStrings l ↔ a ∈ l := by
  induction l with
  | nil => simp [sortStrings]
  | cons t rest ih =>
    unfold sortStrings at ih ⊢
    rw [List.foldr_cons, mem_insertSorted, ih]
    simp

theorem mem_dedupStr_aux (a : String) (l acc : List String) :
    a ∈ l.foldl (fun acc s => if acc.contains s then acc else acc ++ [s]) acc ↔
      a ∈ acc ∨ a ∈ l := by
  induction l generalizing acc with
  | nil => simp
  | cons t rest ih =>
    rw [List.foldl_cons]
    by_cases h : acc.contains t = true
    · have ht : t ∈ acc := List.mem_of_elem_eq_true h
      rw [if_pos h, ih]
      simp only [List.mem_cons]
      constructor
      · tauto
      · rintro (ha | ha | ha)
        · exact Or.inl ha
        · subst ha; exact Or.inl ht
        · exact Or.inr ha
    · rw [if_neg h, ih]
      simp only [List.mem_append, List.mem_singleton, List.mem_cons]
      tauto

theorem mem_dedupStr (a : String) (l : List String) :
    a ∈ dedupStr l ↔ a ∈ l := by
  unfold dedupStr
  rw [mem_dedupStr_aux]
  simp

theorem dupOpsAux_ne_nil_of_mem_seen (ops : List Op) (seen : List String)
    (h : ∃ o ∈ ops, o.name ∈ seen) : dupOpsAux ops seen ≠ [] := by
  induction ops generalizing seen with
  | nil => simp at h
  | cons o rest ih =>
    unfold dupOpsAux
    by_cases hc : seen.contains o.name = true
    · simp [List.mem_of_elem_eq_true hc]
    · rw [if_neg hc]
      obtain ⟨o', ho', hseen⟩ := h
      rcases List.mem_cons.mp ho' with h1 | h1
      · subst h1; exact absurd (List.elem_eq_true_of_mem hseen) hc
      · exact ih (o.name :: seen) ⟨o', h1, List.mem_cons_of_mem _ hseen⟩

theorem dupOpsAux_ne_nil_of_dup (ops : List Op) (seen : List String)
    (h : ¬ (ops.map Op.name).Nodup) : dupOpsAux ops seen ≠ [] := by
  induction ops generalizing seen with
  | nil => simp at h
  | cons o rest ih =>
    unfold dupOpsAux
    by_cases hc : seen.contains o.name = true
    · simp [List.mem_of_elem_eq_true hc]
    · rw [if_neg hc]
      rw [List.map_cons, List.nodup_cons] at h
      by_cases hmem : o.name ∈ rest.map Op.name
      · obtain ⟨o', ho', hname⟩ := List.mem_map.mp hmem
        exact dupOpsAux_ne_nil_of_mem_seen rest (o.name :: seen)
          ⟨o', ho', by simp [hname]⟩
      · exact ih (o.name :: seen) (fun hn => h ⟨hmem, hn⟩)

/-- C7: constructing a `Network` from operations among which the same
identity (name) appears twice fails with a message beginning
"Operations may only be added once", listing the duplicates. -/
theorem network_make_duplicate (ops : List Op)
    (hdup : ¬ (ops.map Op.name).Nodup) :
    Network.make ops = .error (.duplicateOps ((dupOpsAux ops []).map Op.name)) ∧
    (∃ rest, (NetErr.duplicateOps ((dupOpsAux ops []).map Op.name)).message =
      "Operations may only be added once" ++ rest) ∧
    (dupOpsAux ops []).map Op.name ≠ [] := by
  refine ⟨?_, ?_, ?_⟩
  · unfold Network.make
    rw [if_neg hdup]
  · refine ⟨", dupes: " ++ toString ((dupOpsAux ops []).map Op.name), ?_⟩
    show _ ++ _ = _
    rw [← String.append_assoc]
    congr 1
  · intro h
    exact dupOpsAux_ne_nil_of_dup ops [] hdup (by simpa using h)

/-- C7 witness. -/
theorem network_make_duplicate_witness :
    Network.make [{ name := "opA" }, { name := "opA" }] =
      .error (.duplicateOps ["opA"]) := by
  have h := network_make_duplicate [{ name := "opA" }, { name := "opA" }] (by decide)
  rw [h.1]
  rfl

/-- C6: compiling with an outputs collection containing a name with no
node in the graph fails with `unknownOutputs`, whose message begins
"Unknown output nodes:" and carries the unknown names, and the network
(its plan cache included) is unchanged. -/
theorem compile_unknown_output (net : Network) (se : Bool) (i : Option (List String))
    (outs : List String) (p : Option NodePred) (o : String)
    (ho : o ∈ outs) (hnode : net.graph.hasDataNode o = false)
    (hmiss : (net.cache.find? (fun kv =>
      kv.1 = (i.map sortStrings, some (sortStrings outs), p.map (·.1)))) = none) :
    (net.compile se i (some outs) p).1 =
      .error (.unknownOutputs ((dedupStr (sortStrings outs)).filter
        (fun s => ¬ net.graph.hasDataNode s))) ∧
    o ∈ (dedupStr (sortStrings outs)).filter (fun s => ¬ net.graph.hasDataNode s) ∧
    (∃ rest, (NetErr.unknownOutputs ((dedupStr (sortStrings outs)).filter
      (fun s => ¬ net.graph.hasDataNode s))).message = "Unknown output nodes:" ++ rest) ∧
    (net.compile se i (some outs) p).2 = net := by
  have homem : o ∈ (dedupStr (sortStrings outs)).filter
      (fun s => ¬ net.graph.hasDataNode s) := by
    rw [List.mem_filter]
    refine ⟨(mem_dedupStr _ _).mpr ((mem_sortStrings _ _).mpr ho), by simp [hnode]⟩
  have hne : (dedupStr (sortStrings outs)).filter
      (fun s => ¬ net.graph.hasDataNode s) ≠ [] :=
    List.ne_nil_of_mem homem
  have houtne : sortStrings outs ≠ [] := by
    intro h
    have := (mem_sortStrings o outs).mpr ho
    rw [h] at this
    simp at this
  have hprune : pruneGraph net (i.map sortStrings) (some (sortStrings outs)) p =
      .error (.unknownOutputs ((dedupStr (sortStrings outs)).filter
        (fun s => ¬ net.graph.hasDataNode s))) := by
    cases i with
    | none =>
      unfold pruneGraph
      simp only [Option.map_none']
      rw [if_pos houtne, if_pos hne]
    | some ins =>
      unfold pruneGraph
      simp only [Option.map_some']
      rw [if_pos houtne, if_pos hne]
  refine ⟨?_, homem, ⟨" " ++ toString ((dedupStr (sortStrings outs)).filter
    (fun s => ¬ net.graph.hasDataNode s)), by
      show _ ++ _ = _
      rw [← String.append_assoc]
      congr 1⟩, ?_⟩
  · unfold Network.compile
    dsimp only
    simp only [Option.map_some']
    rw [hmiss]
    rw [show (Option.map (fun (x : CacheKey × ExecutionPlan) => x.2) none) = none from rfl]
    rw [hprune]
  · unfold Network.compile
    dsimp only
    simp only [Option.map_some']
    rw [hmiss]
    rw [show (Option.map (fun (x : CacheKey × ExecutionPlan) => x.2) none) = none from rfl]
    rw [hprune]

/-- C6 witness. -/
theorem compile_unknown_output_witness :
    (Network.compile { graph := emptyGraph, needs := [], provides := [] }
      false none (some ["zz"]) none).1 = .error (.unknownOutputs ["zz"]) := by
  have h := compile_unknown_output { graph := emptyGraph, needs := [], provides := [] }
    false none ["zz"] none "zz" (by decide) rfl rfl
  rw [h.1]
  rfl

/-- C2: two `compile` calls on the same network whose inputs and outputs
normalize to the same sorted tuples (or are both absent) and whose
predicate is the same return equal results, the plan steps included; the
second call runs on the network state left by the first. -/
theorem compile_deterministic (net : Network) (se1 se2 : Bool)
    (i1 o1 i2 o2 : Option (List String)) (p1 p2 : Option NodePred)
    (hi : i1.map sortStrings = i2.map sortStrings)
    (ho : o1.map sortStrings = o2.map sortStrings)
    (hp : p1 = p2) :
    ((net.compile se1 i1 o1 p1).2.compile se2 i2 o2 p2).1 =
      (net.compile se1 i1 o1 p1).1 := by
  subst hp
  unfold Network.compile
  dsimp only
  simp only [← hi, ← ho]
  cases hfind : (net.cache.find? (fun kv =>
      kv.1 = (i1.map sortStrings, o1.map sortStrings, p1.map (·.1)))) with
  | some kv =>
    simp only [Option.map_some']
    rw [hfind]
    simp only [Option.map_some']
  | none =>
    simp only [Option.map_none']
    cases hpr : pruneGraph net (i1.map sortStrings) (o1.map sortStrings) p1 with
    | error e =>
      rw [hfind]
      simp only [Option.map_none']
      rw [hpr]
    | ok t =>
      obtain ⟨pdag, needsR, provR⟩ := t
      dsimp only
      rw [List.find?_cons_of_pos _ (by simp)]
      simp only [Option.map_some']

/-- C2 witness: the two raw input lists differ but normalize to the same
sorted tuple. -/
theorem compile_deterministic_witness :
    ((Network.compile { graph := emptyGraph, needs := [], provides := [] }
        false (some ["a"]) none none).2.compile
      false (some ["a"]) none none).1 =
    (Network.compile { graph := emptyGraph, needs := [], provides := [] }
        false (some ["a"]) none none).1 :=
  compile_deterministic { graph := emptyGraph, needs := [], provides := [] }
    false false (some ["a"]) none (some ["a"]) none none none
    rfl rfl rfl

/-- C3: in the topological pass of `unsatisfied_operations`, an operation
node is marked unsatisfied exactly when it has no remaining outgoing edges
or its compulsory needs are not all among its satisfied needs; otherwise
its provides and their sub-document chains are added to the produced data
set and nothing else changes. -/
theorem visitNode_unsatisfied_iff (g : Graph) (st : USt) (o : Op) :
    ((visitNode g st (Node.op o)).unsat = st.unsat ++ [Node.op o] ↔
      ((g.successors (Node.op o)).isEmpty = true ∨
        ¬ realNeeds g (Node.op o) ⊆ st.sat (Node.op o))) ∧
    ((g.successors (Node.op o)).isEmpty = false →
      realNeeds g (Node.op o) ⊆ st.sat (Node.op o) →
      (visitNode g st (Node.op o)).unsat = st.unsat ∧
      (visitNode g st (Node.op o)).ok = chainLiveMany (g.nodes.length + 1) g bothDirs
        st.ok (dataSuccessors g (Node.op o)) ∧
      (visitNode g st (Node.op o)).sat = st.sat) := by
  have hne : st.unsat ≠ st.unsat ++ [Node.op o] := by
    intro h
    simpa using congrArg List.length h
  by_cases h1 : (g.successors (Node.op o)).isEmpty = true
  · refine ⟨?_, ?_⟩
    · simp [visitNode, h1]
    · intro h2
      rw [h1] at h2
      cases h2
  · by_cases h2 : realNeeds g (Node.op o) ⊆ st.sat (Node.op o)
    · refine ⟨?_, fun _ _ => ⟨?_, ?_, ?_⟩⟩ <;>
        simp [visitNode, h1, h2, hne]
    · refine ⟨?_, fun _ hc => absurd hc h2⟩
      simp [visitNode, h1, h2]

/-- C3 witness: a satisfiable operation and an unsatisfiable one. -/
theorem visitNode_unsatisfied_iff_witness :
    ((visitNode emptyGraph ⟨∅, fun _ => ∅, []⟩ (Node.op { name := "o" })).unsat =
      [] ++ [Node.op { name := "o" }]) ∧
    ((emptyGraph.successors (Node.op { name := "o" })).isEmpty = true ∨
      ¬ realNeeds emptyGraph (Node.op { name := "o" }) ⊆ (∅ : Finset String)) := by
  have h := (visitNode_unsatisfied_iff emptyGraph ⟨∅, fun _ => ∅, []⟩
    { name := "o" }).1
  have hcond : (emptyGraph.successors (Node.op { name := "o" })).isEmpty = true := rfl
  exact ⟨h.mpr (Or.inl hcond), Or.inl hcond⟩

/-- C4 counterexample: two operations consume the same side-effect name,
one optionally and one compulsorily; the aggregate needs entry (for the
first) still carries the optional modifier although not every outbound
edge of the node is optional, refuting the claimed equivalence. -/
theorem collect_requirements_optional_counterexample :
    ((collect_requirements (buildGraph
      [{ name := "s1", needs := [{ name := "a", sideffect := true, optional := true }] },
       { name := "s2", needs := [{ name := "a", sideffect := true }] }])).1.head?.map
        Dep.optional = some true) ∧
    (((buildGraph
      [{ name := "s1", needs := [{ name := "a", sideffect := true, optional := true }] },
       { name := "s2", needs := [{ name := "a", sideffect := true }] }]).outEdges
        (Node.data (Dep.node { name := "a", sideffect := true, optional := true }))).all
          (fun e => e.2.2.optional) = false) := by
  decide

/-- C4 (amended): in the aggregate needs, a non-side-effect entry carries
the optional modifier iff every outbound edge of its data node carries
`optional=true` — all outbound edges, sub-document edges to child docs
included, not just the `d -> op` need edges — and when not every such edge
is optional its keyword and optional modifiers are stripped (name and
side-effect bit kept); a side-effect entry keeps its name and modifiers
except that its optional bit is set when every outbound edge of its node
is optional. -/
theorem optionalized_spec (g : Graph) (d : Dep) :
    ((collect_requirements g).1 =
      dedupByNode ((g.opNodes.flatMap (fun o => o.needs)).map (_optionalized g))) ∧
    (is_sfx d = false →
      ((_optionalized g d).optional = true ↔
        (g.outEdges (Node.data d.node)).all (fun e => e.2.2.optional) = true)) ∧
    (is_sfx d = true →
      (_optionalized g d).name = d.name ∧
      (_optionalized g d).sideffect = d.sideffect ∧
      (_optionalized g d).keyword = d.keyword ∧
      (_optionalized g d).optional =
        ((g.outEdges (Node.data d.node)).all (fun e => e.2.2.optional) || d.optional)) ∧
    ((g.outEdges (Node.data d.node)).all (fun e => e.2.2.optional) = false →
      is_sfx d = false →
      (_optionalized g d).optional = false ∧ (_optionalized g d).keyword = none ∧
      (_optionalized g d).name = d.name ∧ (_optionalized g d).sideffect = d.sideffect) := by
  refine ⟨rfl, ?_, ?_, ?_⟩
  · intro hsfx
    by_cases hall : (g.outEdges (Node.data d.node)).all (fun e => e.2.2.optional) = true
    · simp [_optionalized, hall, optional]
    · simp only [Bool.not_eq_true] at hall
      simp [_optionalized, hall, hsfx, modifier_withset]
  · intro hsfx
    by_cases hall : (g.outEdges (Node.data d.node)).all (fun e => e.2.2.optional) = true
    · simp [_optionalized, hall, optional, hsfx, is_sfx]
    · simp only [Bool.not_eq_true] at hall
      simp [_optionalized, hall, hsfx]
  · intro hall hsfx
    simp [_optionalized, hall, hsfx, modifier_withset]

/-- C4 witness: a compulsory plain need gets optionalized away and an
all-optional plain need keeps the modifier. -/
theorem optionalized_spec_witness :
    ((_optionalized (buildGraph [{ name := "w1", needs := [{ name := "n", optional := true }] }])
        { name := "n", optional := true }).optional = true) ∧
    ((_optionalized (buildGraph [{ name := "w2", needs := [{ name := "n" }] }])
        { name := "n" }).optional = false ∧
      (_optionalized (buildGraph [{ name := "w2", needs := [{ name := "n" }] }])
        { name := "n" }).keyword = none) := by
  constructor
  · exact ((optionalized_spec (buildGraph
      [{ name := "w1", needs := [{ name := "n", optional := true }] }])
      { name := "n", optional := true }).2.1 rfl).mpr (by decide)
  · have h := (optionalized_spec (buildGraph [{ name := "w2", needs := [{ name := "n" }] }])
      { name := "n" }).2.2.2 (by decide) rfl
    exact ⟨h.1, h.2.1⟩

/-- The find?-by-name view of the `merge_set` fold: the accumulator takes
precedence, then the first same-named member. -/
theorem mergeFold_find (ops : List MOp) (acc : List MOp) (n : String) :
    ((ops.foldl (fun acc o =>
        if acc.any (fun e => e.name = o.name) then acc else acc ++ [o]) acc).find?
      (fun o => o.name = n)) =
    match acc.find? (fun o => o.name = n) with
    | some v => some v
    | none => ops.find? (fun o => o.name = n) := by
  induction ops generalizing acc with
  | nil =>
    cases h : acc.find? (fun o => o.name = n) <;> simp [h]
  | cons o rest ih =>
    rw [List.foldl_cons]
    by_cases hc : acc.any (fun e => e.name = o.name) = true
    · rw [if_pos hc, ih]
      by_cases hn : o.name = n
      · subst hn
        obtain ⟨e, he, hename⟩ := List.any_eq_true.mp hc
        have hsome : (acc.find? (fun x => x.name = o.name)).isSome := by
          rw [List.find?_isSome]
          exact ⟨e, he, hename⟩
        obtain ⟨v, hv⟩ := Option.isSome_iff_exists.mp hsome
        rw [hv]
      · have : (List.find? (fun o_1 => decide (o_1.name = n)) (o :: rest)) =
            rest.find? (fun o_1 => o_1.name = n) := by
          rw [List.find?_cons_of_neg]
          simpa using hn
        rw [this]
    · rw [if_neg hc, ih]
      rw [List.find?_append]
      by_cases hn : o.name = n
      · subst hn
        have hnone : acc.find? (fun x => x.name = o.name) = none := by
          rw [List.find?_eq_none]
          intro e he
          by_contra hne
          exact hc (List.any_eq_true.mpr ⟨e, he, by simpa using hne⟩)
        rw [hnone]
        simp [List.find?_cons]
      · have h1 : ([o].find? (fun x => x.name = n)) = none := by
          simp [List.find?_cons, hn]
        have h2 : (List.find? (fun o_1 => decide (o_1.name = n)) (o :: rest)) =
            rest.find? (fun o_1 => o_1.name = n) := by
          rw [List.find?_cons_of_neg]
          simpa using hn
        rw [h1, h2]
        cases h : acc.find? (fun x => x.name = n) <;> simp [h]

/-- The merge set keeps at most one entry per name. -/
theorem mergeAccum_nodup_names_aux (ops acc : List MOp)
    (hacc : (acc.map MOp.name).Nodup) :
    (((ops.foldl (fun acc o =>
        if acc.any (fun e => e.name = o.name) then acc else acc ++ [o]) acc)).map
      MOp.name).Nodup := by
  induction ops generalizing acc with
  | nil => exact hacc
  | cons o rest ih =>
    rw [List.foldl_cons]
    by_cases hc : acc.any (fun e => e.name = o.name) = true
    · rw [if_pos hc]
      exact ih acc hacc
    · rw [if_neg hc]
      refine ih (acc ++ [o]) ?_
      rw [List.map_append, List.nodup_append]
      refine ⟨hacc, by simp, ?_⟩
      intro x hx
      simp only [List.map_cons, List.map_nil, List.mem_singleton]
      intro hxo
      subst hxo
      obtain ⟨e, he, hename⟩ := List.mem_map.mp hx
      exact hc (List.any_eq_true.mpr ⟨e, he, by simpa using hename⟩)

/-- find?-by-name commutes with the NULL_OP filter on a name-nodup list. -/
theorem find?_filter_not_null (l : List MOp) (n : String)
    (hnd : (l.map MOp.name).Nodup) :
    ((l.filter (fun o => ¬ o.isNull)).find? (fun o => o.name = n)) =
    match l.find? (fun o => o.name = n) with
    | some o => if o.isNull then none else some o
    | none => none := by
  induction l with
  | nil => simp
  | cons o rest ih =>
    rw [List.map_cons, List.nodup_cons] at hnd
    by_cases hn : o.name = n
    · subst hn
      have hs : (List.find? (fun x => decide (x.name = o.name)) (o :: rest)) = some o :=
        List.find?_cons_of_pos _ (by simp)
      by_cases hnull : o.isNull = true
      · have hfr : rest.find? (fun x => x.name = o.name) = none := by
          rw [List.find?_eq_none]
          intro e he
          by_contra hne
          exact hnd.1 (List.mem_map.mpr ⟨e, he, by simpa using hne⟩)
        have hfilter : (o :: rest).filter (fun x => ¬ x.isNull) =
            rest.filter (fun x => ¬ x.isNull) := by
          simp [List.filter_cons, hnull]
        rw [hfilter, ih hnd.2, hfr, hs]
        simp [hnull]
      · have hfilter : (o :: rest).filter (fun x => ¬ x.isNull) =
            o :: rest.filter (fun x => ¬ x.isNull) := by
          simp [List.filter_cons, hnull]
        rw [hfilter, List.find?_cons_of_pos _ (by simp), hs]
        simp [hnull]
    · have hs : (List.find? (fun x => decide (x.name = n)) (o :: rest)) =
          rest.find? (fun x => x.name = n) :=
        List.find?_cons_of_neg _ (by simpa using hn)
      by_cases hnull : o.isNull = true
      · have hfilter : (o :: rest).filter (fun x => ¬ x.isNull) =
            rest.filter (fun x => ¬ x.isNull) := by
          simp [List.filter_cons, hnull]
        rw [hfilter, ih hnd.2, hs]
      · have hfilter : (o :: rest).filter (fun x => ¬ x.isNull) =
            o :: rest.filter (fun x => ¬ x.isNull) := by
          simp [List.filter_cons, hnull]
        rw [hfilter, List.find?_cons_of_neg _ (by simpa using hn), hs, ih hnd.2]

/-- C8: merging accumulates an insertion-ordered set keyed by name in
which the earliest member wins (the merged entry for each name is the
first same-named member, dropped entirely when that first member is the
`NULL_OP` sentinel), sentinels never reach the network, and the network
is built from exactly the merged survivors. -/
theorem build_network_merge (ops : List MOp) :
    (∀ x ∈ (mergeAccum ops).filter (fun o => ¬ o.isNull), x.isNull = false) ∧
    (∀ n : String,
      ((mergeAccum ops).filter (fun o => ¬ o.isNull)).find? (fun o => o.name = n) =
        match ops.find? (fun o => o.name = n) with
        | some o => if o.isNull then none else some o
        | none => none) ∧
    (build_network ops = Network.make
      (((mergeAccum ops).filter (fun o => ¬ o.isNull)).filterMap
        (fun o => match o with | .op op => some op | .nullOp _ => none))) := by
  refine ⟨?_, ?_, rfl⟩
  · intro x hx
    have := (List.mem_filter.mp hx).2
    simpa using this
  · intro n
    have hnd : ((mergeAccum ops).map MOp.name).Nodup :=
      mergeAccum_nodup_names_aux ops [] (by simp)
    rw [find?_filter_not_null (mergeAccum ops) n hnd]
    unfold mergeAccum
    rw [mergeFold_find]
    simp

/-- C8 witness: an early sentinel eliminates the later same-named
operation; an unrelated operation survives. -/
theorem build_network_merge_witness :
    (((mergeAccum [MOp.nullOp "a", MOp.op { name := "a" }, MOp.op { name := "b" }]).filter
      (fun o => ¬ o.isNull)).find? (fun o => o.name = "a") = none) ∧
    (((mergeAccum [MOp.nullOp "a", MOp.op { name := "a" }, MOp.op { name := "b" }]).filter
      (fun o => ¬ o.isNull)).find? (fun o => o.name = "b") =
        some (MOp.op { name := "b" })) := by
  have h := (build_network_merge
    [MOp.nullOp "a", MOp.op { name := "a" }, MOp.op { name := "b" }]).2.1
  constructor
  · rw [h "a"]
    decide
  · rw [h "b"]
    decide

/-! ## Lemmas on the graph primitives and built graphs -/

/-- Edge endpoints are graph nodes. -/
def Graph.edgesClosed (g : Graph) : Prop :=
  ∀ e ∈ g.edges, e.1 ∈ g.nodes ∧ e.2.1 ∈ g.nodes

theorem foldl_preserves {β : Type _} {α : Type _} (f : β → α → β) (P : β → Prop)
    (hf : ∀ b a, P b → P (f b a)) : ∀ (l : List α) (b : β), P b → P (l.foldl f b) := by
  intro l
  induction l with
  | nil => intro b h; exact h
  | cons a rest ih => intro b h; exact ih (f b a) (hf b a h)

theorem mem_addNode_nodes {g : Graph} {n x : Node} :
    x ∈ (g.addNode n).nodes ↔ x ∈ g.nodes ∨ x = n := by
  unfold Graph.addNode
  by_cases h : g.hasNode n = true
  · rw [if_pos h]
    have hn : n ∈ g.nodes := List.mem_of_elem_eq_true h
    constructor
    · exact Or.inl
    · rintro (hx | hx)
      · exact hx
      · subst hx; exact hn
  · rw [if_neg h]
    simp

theorem addNode_edges (g : Graph) (n : Node) : (g.addNode n).edges = g.edges := by
  unfold Graph.addNode
  split <;> rfl

theorem addNode_nodes_sub {g : Graph} {n x : Node} (h : x ∈ g.nodes) :
    x ∈ (g.addNode n).nodes := mem_addNode_nodes.mpr (Or.inl h)

theorem addEdgeWith_nodes (g : Graph) (u v : Node) (f : EdgeAttrs → EdgeAttrs) :
    (g.addEdgeWith u v f).nodes = ((g.addNode u).addNode v).nodes := by
  unfold Graph.addEdgeWith
  dsimp only
  split <;> rfl

theorem mem_addEdgeWith_nodes {g : Graph} {u v x : Node} {f : EdgeAttrs → EdgeAttrs} :
    x ∈ (g.addEdgeWith u v f).nodes ↔ x ∈ g.nodes ∨ x = u ∨ x = v := by
  rw [addEdgeWith_nodes, mem_addNode_nodes, mem_addNode_nodes]
  tauto

theorem mem_addEdgeWith_edges {g : Graph} {u v : Node} {f : EdgeAttrs → EdgeAttrs}
    {e : Node × Node × EdgeAttrs} (h : e ∈ (g.addEdgeWith u v f).edges) :
    (e.1 = u ∧ e.2.1 = v) ∨ e ∈ g.edges := by
  unfold Graph.addEdgeWith at h
  dsimp only at h
  simp only [addNode_edges] at h
  split at h
  · simp only [List.mem_map] at h
    obtain ⟨e0, he0, heq⟩ := h
    by_cases hc : e0.1 = u ∧ e0.2.1 = v
    · rw [if_pos hc] at heq
      subst heq
      exact Or.inl ⟨hc.1, hc.2⟩
    · rw [if_neg hc] at heq
      subst heq
      exact Or.inr he0
  · simp only [List.mem_append, List.mem_singleton] at h
    rcases h with h | h
    · exact Or.inr h
    · subst h
      exact Or.inl ⟨rfl, rfl⟩

theorem addEdgeWith_pair_preserved {g : Graph} {u v : Node} {f : EdgeAttrs → EdgeAttrs}
    {x y : Node} {a : EdgeAttrs} (h : (x, y, a) ∈ g.edges) :
    ∃ a', (x, y, a') ∈ (g.addEdgeWith u v f).edges ∧
      (a' = a ∨ (x = u ∧ y = v ∧ a' = f a)) := by
  unfold Graph.addEdgeWith
  dsimp only
  simp only [addNode_edges]
  split
  · by_cases hc : x = u ∧ y = v
    · refine ⟨f a, ?_, Or.inr ⟨hc.1, hc.2, rfl⟩⟩
      simp only [List.mem_map]
      exact ⟨(x, y, a), h, by simp [hc.1, hc.2]⟩
    · refine ⟨a, ?_, Or.inl rfl⟩
      simp only [List.mem_map]
      refine ⟨(x, y, a), h, ?_⟩
      rw [if_neg (by simpa using hc)]
  · exact ⟨a, by simp [h], Or.inl rfl⟩

theorem addEdgeWith_exists_edge (g : Graph) (u v : Node) (f : EdgeAttrs → EdgeAttrs) :
    ∃ a, (u, v, a) ∈ (g.addEdgeWith u v f).edges ∧
      (a = f {} ∨ ∃ a0, (u, v, a0) ∈ g.edges ∧ a = f a0) := by
  unfold Graph.addEdgeWith
  dsimp only
  simp only [addNode_edges]
  split
  · rename_i hhas
    unfold Graph.hasEdge at hhas
    simp only [addNode_edges] at hhas
    obtain ⟨e0, he0, hcond⟩ := List.any_eq_true.mp hhas
    have hc : e0.1 = u ∧ e0.2.1 = v := by simpa using hcond
    refine ⟨f e0.2.2, ?_, Or.inr ⟨e0.2.2, ?_, rfl⟩⟩
    · simp only [List.mem_map]
      refine ⟨e0, he0, ?_⟩
      rw [if_pos hc, hc.1, hc.2]
    · rw [← hc.1, ← hc.2]
      exact he0
  · exact ⟨f {}, by simp, Or.inl rfl⟩

theorem edgesClosed_addNode {g : Graph} {n : Node} (h : g.edgesClosed) :
    (g.addNode n).edgesClosed := by
  intro e he
  rw [addNode_edges] at he
  obtain ⟨h1, h2⟩ := h e he
  exact ⟨addNode_nodes_sub h1, addNode_nodes_sub h2⟩

theorem edgesClosed_addEdgeWith {g : Graph} {u v : Node} {f : EdgeAttrs → EdgeAttrs}
    (h : g.edgesClosed) : (g.addEdgeWith u v f).edgesClosed := by
  intro e he
  rcases mem_addEdgeWith_edges he with hc | hc
  · constructor
    · rw [hc.1]; exact mem_addEdgeWith_nodes.mpr (Or.inr (Or.inl rfl))
    · rw [hc.2]; exact mem_addEdgeWith_nodes.mpr (Or.inr (Or.inr rfl))
  · obtain ⟨h1, h2⟩ := h e hc
    exact ⟨mem_addEdgeWith_nodes.mpr (Or.inl h1), mem_addEdgeWith_nodes.mpr (Or.inl h2)⟩

theorem nodup_addNode {g : Graph} {n : Node} (h : g.nodes.Nodup) :
    (g.addNode n).nodes.Nodup := by
  unfold Graph.addNode
  by_cases hc : g.hasNode n = true
  · rw [if_pos hc]; exact h
  · rw [if_neg hc]
    simp only [List.nodup_append, List.nodup_singleton]
    refine ⟨h, by simp, ?_⟩
    intro x hx
    simp only [List.mem_singleton]
    intro hxn
    subst hxn
    exact hc (List.elem_eq_true_of_mem hx)

theorem nodup_addEdgeWith {g : Graph} {u v : Node} {f : EdgeAttrs → EdgeAttrs}
    (h : g.nodes.Nodup) : (g.addEdgeWith u v f).nodes.Nodup := by
  rw [addEdgeWith_nodes]
  exact nodup_addNode (nodup_addNode h)

theorem appendSubdocChain_closed {st : ApSt} (h : st.g.edgesClosed) (parts : List String) :
    (appendSubdocChain st parts).g.edgesClosed := by
  unfold appendSubdocChain
  refine foldl_preserves _ (fun g => Graph.edgesClosed g)
    (fun g e hg => edgesClosed_addEdgeWith hg) _ _ h

theorem appendSubdocChain_nodup {st : ApSt} (h : st.g.nodes.Nodup) (parts : List String) :
    (appendSubdocChain st parts).g.nodes.Nodup := by
  unfold appendSubdocChain
  refine foldl_preserves _ (fun (g : Graph) => g.nodes.Nodup)
    (fun g e hg => nodup_addEdgeWith hg) _ _ h

theorem needChainStep_closed {st : ApSt} (h : st.g.edgesClosed) (n : Dep) :
    (needChainStep st n).g.edgesClosed := by
  unfold needChainStep
  split
  · exact appendSubdocChain_closed h _
  · exact h

theorem needChainStep_nodup {st : ApSt} (h : st.g.nodes.Nodup) (n : Dep) :
    (needChainStep st n).g.nodes.Nodup := by
  unfold needChainStep
  split
  · exact appendSubdocChain_nodup h _
  · exact h

theorem provideStep_closed {o : Op} {st : ApSt} (h : st.g.edgesClosed) (p : Dep) :
    (provideStep o st p).g.edgesClosed := by
  unfold provideStep
  dsimp only
  refine edgesClosed_addEdgeWith ?_
  split
  · refine edgesClosed_addNode ?_
    split
    · exact appendSubdocChain_closed h _
    · exact h
  · split
    · exact appendSubdocChain_closed h _
    · exact h

theorem provideStep_nodup {o : Op} {st : ApSt} (h : st.g.nodes.Nodup) (p : Dep) :
    (provideStep o st p).g.nodes.Nodup := by
  unfold provideStep
  dsimp only
  refine nodup_addEdgeWith ?_
  split
  · refine nodup_addNode ?_
    split
    · exact appendSubdocChain_nodup h _
    · exact h
  · split
    · exact appendSubdocChain_nodup h _
    · exact h

theorem append_operation_closed {g : Graph} (h : g.edgesClosed) (o : Op) :
    (_append_operation g o).edgesClosed := by
  unfold _append_operation
  dsimp only
  refine foldl_preserves (provideStep o) (fun st => st.g.edgesClosed)
    (fun st p hst => provideStep_closed hst p) _ _ ?_
  show Graph.edgesClosed (o.needs.foldl (needEdgeStep o) _)
  refine foldl_preserves (needEdgeStep o) (fun g => Graph.edgesClosed g)
    (fun g n hg => edgesClosed_addEdgeWith hg) _ _ ?_
  refine edgesClosed_addNode ?_
  refine foldl_preserves _ (fun g => Graph.edgesClosed g)
    (fun g n hg => edgesClosed_addNode hg) _ _ ?_
  exact foldl_preserves needChainStep (fun st => st.g.edgesClosed)
    (fun st n hst => needChainStep_closed hst n) _ ⟨g, []⟩ h

theorem append_operation_nodup {g : Graph} (h : g.nodes.Nodup) (o : Op) :
    (_append_operation g o).nodes.Nodup := by
  unfold _append_operation
  dsimp only
  refine foldl_preserves (provideStep o) (fun st => st.g.nodes.Nodup)
    (fun st p hst => provideStep_nodup hst p) _ _ ?_
  show ((o.needs.foldl (needEdgeStep o) _)).nodes.Nodup
  refine foldl_preserves (needEdgeStep o) (fun (g : Graph) => g.nodes.Nodup)
    (fun g n hg => nodup_addEdgeWith hg) _ _ ?_
  refine nodup_addNode ?_
  refine foldl_preserves _ (fun (g : Graph) => g.nodes.Nodup)
    (fun g n hg => nodup_addNode hg) _ _ ?_
  exact foldl_preserves needChainStep (fun st => st.g.nodes.Nodup)
    (fun st n hst => needChainStep_nodup hst n) _ ⟨g, []⟩ h

theorem buildGraph_closed (ops : List Op) : (buildGraph ops).edgesClosed := by
  unfold buildGraph
  refine foldl_preserves _ (fun g => Graph.edgesClosed g)
    (fun g o hg => append_operation_closed hg o) _ _ ?_
  intro e he
  simp at he

theorem buildGraph_nodup (ops : List Op) : (buildGraph ops).nodes.Nodup := by
  unfold buildGraph
  refine foldl_preserves _ (fun (g : Graph) => g.nodes.Nodup)
    (fun g o hg => append_operation_nodup hg o) _ _ (by simp)

/-- Refined membership in `addEdgeWith` edges, tracking attribute
provenance. -/
theorem mem_addEdgeWith_edges_attrs {g : Graph} {u v : Node} {f : EdgeAttrs → EdgeAttrs}
    {e : Node × Node × EdgeAttrs} (h : e ∈ (g.addEdgeWith u v f).edges) :
    e ∈ g.edges ∨ (e.1 = u ∧ e.2.1 = v ∧
      (e.2.2 = f {} ∨ ∃ a0, (u, v, a0) ∈ g.edges ∧ e.2.2 = f a0)) := by
  unfold Graph.addEdgeWith at h
  dsimp only at h
  simp only [addNode_edges] at h
  split at h
  · simp only [List.mem_map] at h
    obtain ⟨e0, he0, heq⟩ := h
    by_cases hc : e0.1 = u ∧ e0.2.1 = v
    · rw [if_pos hc] at heq
      subst heq
      refine Or.inr ⟨hc.1, hc.2, Or.inr ⟨e0.2.2, ?_, rfl⟩⟩
      rw [← hc.1, ← hc.2]
      exact he0
    · rw [if_neg hc] at heq
      subst heq
      exact Or.inl he0
  · simp only [List.mem_append, List.mem_singleton] at h
    rcases h with h | h
    · exact Or.inl h
    · subst h
      exact Or.inr ⟨rfl, rfl, Or.inl rfl⟩

/-- No edge of `g` enters the node of operation `o`. -/
def noOpInEdges (g : Graph) (o : Op) : Prop :=
  ∀ e ∈ g.edges, e.2.1 ≠ Node.op o

/-- Every edge of `g` entering the node of `o` is a non-subdoc edge. -/
def opInSubdocFree (g : Graph) (o : Op) : Prop :=
  ∀ e ∈ g.edges, e.2.1 = Node.op o → e.2.2.subdoc = false

/-- The (src, dst) pair has some edge in `g`. -/
def hasPairEdge (g : Graph) (x y : Node) : Prop := ∃ a, (x, y, a) ∈ g.edges

theorem noOpInEdges_opInSubdocFree {g : Graph} {o : Op} (h : noOpInEdges g o) :
    opInSubdocFree g o := fun e he hd => absurd hd (h e he)

theorem noOpInEdges_addEdgeWith {g : Graph} {u v : Node} {f : EdgeAttrs → EdgeAttrs}
    {o : Op} (hv : v ≠ Node.op o) (h : noOpInEdges g o) :
    noOpInEdges (g.addEdgeWith u v f) o := by
  intro e he hd
  rcases mem_addEdgeWith_edges he with hc | hc
  · rw [hd] at hc
    exact hv hc.2.symm
  · exact h e hc hd

theorem opInSubdocFree_addEdgeWith_ne {g : Graph} {u v : Node} {f : EdgeAttrs → EdgeAttrs}
    {o : Op} (hv : v ≠ Node.op o) (h : opInSubdocFree g o) :
    opInSubdocFree (g.addEdgeWith u v f) o := by
  intro e he hd
  rcases mem_addEdgeWith_edges_attrs he with hc | hc
  · exact h e hc hd
  · rw [hd] at hc
    exact absurd hc.2.1.symm hv

theorem opInSubdocFree_addEdgeWith_self {g : Graph} {u : Node} {f : EdgeAttrs → EdgeAttrs}
    {o : Op} (hf : ∀ a, (f a).subdoc = a.subdoc) (h : opInSubdocFree g o) :
    opInSubdocFree (g.addEdgeWith u (Node.op o) f) o := by
  intro e he hd
  rcases mem_addEdgeWith_edges_attrs he with hc | hc
  · exact h e hc hd
  · rcases hc.2.2 with ha | ⟨a0, ha0, ha⟩
    · rw [ha, hf]
    · rw [ha, hf]
      exact h _ ha0 rfl

theorem opInSubdocFree_addNode {g : Graph} {n : Node} {o : Op}
    (h : opInSubdocFree g o) : opInSubdocFree (g.addNode n) o := by
  intro e he hd
  rw [addNode_edges] at he
  exact h e he hd

theorem noOpInEdges_addNode {g : Graph} {n : Node} {o : Op}
    (h : noOpInEdges g o) : noOpInEdges (g.addNode n) o := by
  intro e he
  rw [addNode_edges] at he
  exact h e he

theorem hasPairEdge_addEdgeWith {g : Graph} {u v x y : Node} {f : EdgeAttrs → EdgeAttrs}
    (h : hasPairEdge g x y) : hasPairEdge (g.addEdgeWith u v f) x y := by
  obtain ⟨a, ha⟩ := h
  obtain ⟨a', ha', _⟩ := addEdgeWith_pair_preserved ha
  exact ⟨a', ha'⟩

theorem hasPairEdge_addNode {g : Graph} {n x y : Node}
    (h : hasPairEdge g x y) : hasPairEdge (g.addNode n) x y := by
  obtain ⟨a, ha⟩ := h
  exact ⟨a, by rw [addNode_edges]; exact ha⟩

theorem needEdgeUpd_subdoc (n : Dep) (a : EdgeAttrs) :
    (needEdgeUpd n a).subdoc = a.subdoc := by
  unfold needEdgeUpd
  dsimp only
  cases n.keyword <;> by_cases h1 : is_optional n = true <;>
    by_cases h2 : is_sfx n = true <;> simp [h1, h2]

theorem appendSubdocChain_noOpInEdges {st : ApSt} {o : Op}
    (h : noOpInEdges st.g o) (parts : List String) :
    noOpInEdges (appendSubdocChain st parts).g o := by
  unfold appendSubdocChain
  refine foldl_preserves _ (fun (g : Graph) => noOpInEdges g o)
    (fun g e hg => noOpInEdges_addEdgeWith (by simp) hg) _ _ h

theorem appendSubdocChain_opInSubdocFree {st : ApSt} {o : Op}
    (h : opInSubdocFree st.g o) (parts : List String) :
    opInSubdocFree (appendSubdocChain st parts).g o := by
  unfold appendSubdocChain
  refine foldl_preserves _ (fun (g : Graph) => opInSubdocFree g o)
    (fun g e hg => opInSubdocFree_addEdgeWith_ne (by simp) hg) _ _ h

theorem appendSubdocChain_hasPairEdge {st : ApSt} {x y : Node}
    (h : hasPairEdge st.g x y) (parts : List String) :
    hasPairEdge (appendSubdocChain st parts).g x y := by
  unfold appendSubdocChain
  refine foldl_preserves _ (fun (g : Graph) => hasPairEdge g x y)
    (fun g e hg => hasPairEdge_addEdgeWith hg) _ _ h

theorem needChainStep_noOpInEdges {st : ApSt} {o : Op}
    (h : noOpInEdges st.g o) (n : Dep) : noOpInEdges (needChainStep st n).g o := by
  unfold needChainStep
  split
  · exact appendSubdocChain_noOpInEdges h _
  · exact h

theorem needChainStep_opInSubdocFree {st : ApSt} {o : Op}
    (h : opInSubdocFree st.g o) (n : Dep) :
    opInSubdocFree (needChainStep st n).g o := by
  unfold needChainStep
  split
  · exact appendSubdocChain_opInSubdocFree h _
  · exact h

theorem needChainStep_hasPairEdge {st : ApSt} {x y : Node}
    (h : hasPairEdge st.g x y) (n : Dep) : hasPairEdge (needChainStep st n).g x y := by
  unfold needChainStep
  split
  · exact appendSubdocChain_hasPairEdge h _
  · exact h

theorem provideStep_opInSubdocFree {op : Op} {st : ApSt} {o : Op}
    (h : opInSubdocFree st.g o) (p : Dep) :
    opInSubdocFree (provideStep op st p).g o := by
  unfold provideStep
  dsimp only
  refine opInSubdocFree_addEdgeWith_ne (by simp) ?_
  split
  · refine opInSubdocFree_addNode ?_
    split
    · exact appendSubdocChain_opInSubdocFree h _
    · exact h
  · split
    · exact appendSubdocChain_opInSubdocFree h _
    · exact h

theorem provideStep_noOpInEdges {op : Op} {st : ApSt} {o : Op}
    (h : noOpInEdges st.g o) (p : Dep) :
    noOpInEdges (provideStep op st p).g o := by
  unfold provideStep
  dsimp only
  refine noOpInEdges_addEdgeWith (by simp) ?_
  split
  · refine noOpInEdges_addNode ?_
    split
    · exact appendSubdocChain_noOpInEdges h _
    · exact h
  · split
    · exact appendSubdocChain_noOpInEdges h _
    · exact h

theorem provideStep_hasPairEdge {op : Op} {st : ApSt} {x y : Node}
    (h : hasPairEdge st.g x y) (p : Dep) :
    hasPairEdge (provideStep op st p).g x y := by
  unfold provideStep
  dsimp only
  refine hasPairEdge_addEdgeWith ?_
  split
  · refine hasPairEdge_addNode ?_
    split
    · exact appendSubdocChain_hasPairEdge h _
    · exact h
  · split
    · exact appendSubdocChain_hasPairEdge h _
    · exact h

/-- Appending an operation with a different name creates no edge into
`Node.op o`. -/
theorem append_operation_noOpInEdges {g : Graph} {o op' : Op}
    (hname : op'.name ≠ o.name) (h : noOpInEdges g o) :
    noOpInEdges (_append_operation g op') o := by
  have hne : Node.op op' ≠ Node.op o := by
    intro hc
    injection hc with hc
    exact hname (congrArg Op.name hc)
  unfold _append_operation
  dsimp only
  refine foldl_preserves (provideStep op') (fun st => noOpInEdges st.g o)
    (fun st p hst => provideStep_noOpInEdges hst p) _ _ ?_
  show noOpInEdges (op'.needs.foldl (needEdgeStep op') _) o
  refine foldl_preserves (needEdgeStep op') (fun (g : Graph) => noOpInEdges g o)
    (fun g n hg => noOpInEdges_addEdgeWith hne hg) _ _ ?_
  refine noOpInEdges_addNode ?_
  refine foldl_preserves _ (fun (g : Graph) => noOpInEdges g o)
    (fun g n hg => noOpInEdges_addNode hg) _ _ ?_
  exact foldl_preserves needChainStep (fun st => noOpInEdges st.g o)
    (fun st n hst => needChainStep_noOpInEdges hst n) _ ⟨g, []⟩ h

/-- Appending an operation with a different name preserves the pair-edge
and the subdoc-free facts. -/
theorem append_operation_preserves {g : Graph} {o op' : Op} {x y : Node}
    (hname : op'.name ≠ o.name) :
    (opInSubdocFree g o → opInSubdocFree (_append_operation g op') o) ∧
    (hasPairEdge g x y → hasPairEdge (_append_operation g op') x y) := by
  have hne : Node.op op' ≠ Node.op o := by
    intro hc
    injection hc with hc
    exact hname (congrArg Op.name hc)
  constructor
  · intro h
    unfold _append_operation
    dsimp only
    refine foldl_preserves (provideStep op') (fun st => opInSubdocFree st.g o)
      (fun st p hst => provideStep_opInSubdocFree hst p) _ _ ?_
    show opInSubdocFree (op'.needs.foldl (needEdgeStep op') _) o
    refine foldl_preserves (needEdgeStep op') (fun (g : Graph) => opInSubdocFree g o)
      (fun g n hg => opInSubdocFree_addEdgeWith_ne hne hg) _ _ ?_
    refine opInSubdocFree_addNode ?_
    refine foldl_preserves _ (fun (g : Graph) => opInSubdocFree g o)
      (fun g n hg => opInSubdocFree_addNode hg) _ _ ?_
    exact foldl_preserves needChainStep (fun st => opInSubdocFree st.g o)
      (fun st n hst => needChainStep_opInSubdocFree hst n) _ ⟨g, []⟩ h
  · intro h
    unfold _append_operation
    dsimp only
    refine foldl_preserves (provideStep op') (fun st => hasPairEdge st.g x y)
      (fun st p hst => provideStep_hasPairEdge hst p) _ _ ?_
    show hasPairEdge (op'.needs.foldl (needEdgeStep op') _) x y
    refine foldl_preserves (needEdgeStep op') (fun (g : Graph) => hasPairEdge g x y)
      (fun g n hg => hasPairEdge_addEdgeWith hg) _ _ ?_
    refine hasPairEdge_addNode ?_
    refine foldl_preserves _ (fun (g : Graph) => hasPairEdge g x y)
      (fun g n hg => hasPairEdge_addNode hg) _ _ ?_
    exact foldl_preserves needChainStep (fun st => hasPairEdge st.g x y)
      (fun st n hst => needChainStep_hasPairEdge hst n) _ ⟨g, []⟩ h

/-- The needs-edge fold guarantees a need edge for each processed dep. -/
theorem needFold_pair (o : Op) (dep : Dep) :
    ∀ (ns : List Dep) (g0 : Graph), dep ∈ ns →
      hasPairEdge (ns.foldl (needEdgeStep o) g0) (Node.data dep.node) (Node.op o) := by
  intro ns
  induction ns with
  | nil => intro g0 h; simp at h
  | cons n rest ih =>
    intro g0 h
    rw [List.foldl_cons]
    rcases List.mem_cons.mp h with h1 | h1
    · subst h1
      refine foldl_preserves (needEdgeStep o)
        (fun (g : Graph) => hasPairEdge g (Node.data dep.node) (Node.op o))
        (fun g n hg => hasPairEdge_addEdgeWith hg) _ _ ?_
      obtain ⟨a, ha, _⟩ := addEdgeWith_exists_edge g0 (Node.data dep.node) (Node.op o)
        (needEdgeUpd dep)
      exact ⟨a, ha⟩
    · exact ih _ h1

/-- The provides fold guarantees a provide edge for each processed dep. -/
theorem provFold_pair (o : Op) (dep : Dep) :
    ∀ (ps : List Dep) (st : ApSt), dep ∈ ps →
      hasPairEdge ((ps.foldl (provideStep o) st).g) (Node.op o) (Node.data dep.node) := by
  intro ps
  induction ps with
  | nil => intro st h; simp at h
  | cons p rest ih =>
    intro st h
    rw [List.foldl_cons]
    rcases List.mem_cons.mp h with h1 | h1
    · subst h1
      refine foldl_preserves (provideStep o)
        (fun (st : ApSt) => hasPairEdge st.g (Node.op o) (Node.data dep.node))
        (fun st p hst => provideStep_hasPairEdge hst p) _ _ ?_
      unfold provideStep
      dsimp only
      obtain ⟨a, ha, _⟩ := addEdgeWith_exists_edge _ (Node.op o) (Node.data dep.node)
        (provideUpd o dep)
      exact ⟨a, ha⟩
    · exact ih _ h1

/-- After appending `o` to a graph with no edges into `Node.op o`, every
need of `o` has its edge, all edges into `Node.op o` are non-subdoc, and
every provide of `o` has its edge. -/
theorem append_operation_self (g : Graph) (o : Op) (h : noOpInEdges g o) :
    opInSubdocFree (_append_operation g o) o ∧
    (∀ dep ∈ o.needs, hasPairEdge (_append_operation g o) (Node.data dep.node) (Node.op o)) ∧
    (∀ dep ∈ o.provides, hasPairEdge (_append_operation g o) (Node.op o) (Node.data dep.node)) := by
  unfold _append_operation
  dsimp only
  refine ⟨?_, ?_, ?_⟩
  · refine foldl_preserves (provideStep o) (fun st => opInSubdocFree st.g o)
      (fun st p hst => provideStep_opInSubdocFree hst p) _ _ ?_
    show opInSubdocFree (o.needs.foldl (needEdgeStep o) _) o
    refine foldl_preserves (needEdgeStep o) (fun (g : Graph) => opInSubdocFree g o)
      (fun g n hg => opInSubdocFree_addEdgeWith_self (needEdgeUpd_subdoc n) hg) _ _ ?_
    refine noOpInEdges_opInSubdocFree ?_
    refine noOpInEdges_addNode ?_
    refine foldl_preserves _ (fun (g : Graph) => noOpInEdges g o)
      (fun g n hg => noOpInEdges_addNode hg) _ _ ?_
    exact foldl_preserves needChainStep (fun st => noOpInEdges st.g o)
      (fun st n hst => needChainStep_noOpInEdges hst n) _ ⟨g, []⟩ h
  · intro dep hdep
    refine foldl_preserves (provideStep o)
      (fun st => hasPairEdge st.g (Node.data dep.node) (Node.op o))
      (fun st p hst => provideStep_hasPairEdge hst p) _ _ ?_
    show hasPairEdge (o.needs.foldl (needEdgeStep o) _) (Node.data dep.node) (Node.op o)
    exact needFold_pair o dep o.needs _ hdep
  · intro dep hdep
    exact provFold_pair o dep o.provides _ hdep

/-- Appending an operation preserves any existing pair edge. -/
theorem append_operation_hasPairEdge {g : Graph} {x y : Node} (op' : Op)
    (h : hasPairEdge g x y) : hasPairEdge (_append_operation g op') x y := by
  unfold _append_operation
  dsimp only
  refine foldl_preserves (provideStep op') (fun st => hasPairEdge st.g x y)
    (fun st p hst => provideStep_hasPairEdge hst p) _ _ ?_
  show hasPairEdge (op'.needs.foldl (needEdgeStep op') _) x y
  refine foldl_preserves (needEdgeStep op') (fun (g : Graph) => hasPairEdge g x y)
    (fun g n hg => hasPairEdge_addEdgeWith hg) _ _ ?_
  refine hasPairEdge_addNode ?_
  refine foldl_preserves _ (fun (g : Graph) => hasPairEdge g x y)
    (fun g n hg => hasPairEdge_addNode hg) _ _ ?_
  exact foldl_preserves needChainStep (fun st => hasPairEdge st.g x y)
    (fun st n hst => needChainStep_hasPairEdge hst n) _ ⟨g, []⟩ h

theorem fold_append_noOpInEdges {o : Op} :
    ∀ (ops : List Op) (g : Graph), (∀ o' ∈ ops, o'.name ≠ o.name) →
      noOpInEdges g o → noOpInEdges (ops.foldl _append_operation g) o := by
  intro ops
  induction ops with
  | nil => intro g _ h; exact h
  | cons op' rest ih =>
    intro g hn h
    rw [List.foldl_cons]
    exact ih _ (fun x hx => hn x (List.mem_cons_of_mem _ hx))
      (append_operation_noOpInEdges (hn op' (List.mem_cons_self _ _)) h)

theorem fold_append_opInSubdocFree {o : Op} :
    ∀ (ops : List Op) (g : Graph), (∀ o' ∈ ops, o'.name ≠ o.name) →
      opInSubdocFree g o → opInSubdocFree (ops.foldl _append_operation g) o := by
  intro ops
  induction ops with
  | nil => intro g _ h; exact h
  | cons op' rest ih =>
    intro g hn h
    rw [List.foldl_cons]
    exact ih _ (fun x hx => hn x (List.mem_cons_of_mem _ hx))
      ((append_operation_preserves (x := Node.data "") (y := Node.data "")
        (hn op' (List.mem_cons_self _ _))).1 h)

theorem fold_append_hasPairEdge {x y : Node} :
    ∀ (ops : List Op) (g : Graph), hasPairEdge g x y →
      hasPairEdge (ops.foldl _append_operation g) x y := by
  intro ops
  induction ops with
  | nil => intro g h; exact h
  | cons op' rest ih =>
    intro g h
    rw [List.foldl_cons]
    exact ih _ (append_operation_hasPairEdge op' h)

/-- Every declared need of an operation of a duplicate-free network is a
non-subdoc edge of the built graph. -/
theorem buildGraph_need_edge {ops : List Op} {o : Op} {dep : Dep}
    (hnd : (ops.map Op.name).Nodup) (ho : o ∈ ops) (hdep : dep ∈ o.needs) :
    ∃ a, (Node.data dep.node, Node.op o, a) ∈ (buildGraph ops).edges ∧
      a.subdoc = false := by
  obtain ⟨pre, post, rfl⟩ := List.append_of_mem ho
  have hnames : (∀ o' ∈ pre, o'.name ≠ o.name) ∧ (∀ o' ∈ post, o'.name ≠ o.name) := by
    rw [List.map_append, List.nodup_append] at hnd
    obtain ⟨h1, h2, h3⟩ := hnd
    constructor
    · intro o' ho' hc
      exact h3 (List.mem_map_of_mem _ ho') (by rw [hc]; simp)
    · intro o' ho' hc
      rw [List.map_cons, List.nodup_cons] at h2
      exact h2.1 (by rw [← hc]; exact List.mem_map_of_mem _ ho')
  have hbuild : buildGraph (pre ++ o :: post) =
      post.foldl _append_operation (_append_operation
        (pre.foldl _append_operation {}) o) := by
    unfold buildGraph
    rw [List.foldl_append, List.foldl_cons]
  rw [hbuild]
  have hpre : noOpInEdges (pre.foldl _append_operation {}) o :=
    fold_append_noOpInEdges pre {} hnames.1 (fun e he => by simp at he)
  obtain ⟨hfree, hneeds, _⟩ := append_operation_self _ o hpre
  have hfree' := fold_append_opInSubdocFree post _ hnames.2 hfree
  have hpair' := fold_append_hasPairEdge (x := Node.data dep.node) (y := Node.op o)
    post _ (hneeds dep hdep)
  obtain ⟨a, ha⟩ := hpair'
  exact ⟨a, ha, hfree' _ ha rfl⟩

/-- Every declared provide of an operation is an edge of the built graph. -/
theorem buildGraph_provide_edge {ops : List Op} {o : Op} {dep : Dep}
    (ho : o ∈ ops) (hdep : dep ∈ o.provides) :
    ∃ a, (Node.op o, Node.data dep.node, a) ∈ (buildGraph ops).edges := by
  obtain ⟨pre, post, rfl⟩ := List.append_of_mem ho
  have hbuild : buildGraph (pre ++ o :: post) =
      post.foldl _append_operation (_append_operation
        (pre.foldl _append_operation {}) o) := by
    unfold buildGraph
    rw [List.foldl_append, List.foldl_cons]
  rw [hbuild]
  have hself : hasPairEdge (_append_operation (pre.foldl _append_operation {}) o)
      (Node.op o) (Node.data dep.node) := by
    unfold _append_operation
    dsimp only
    exact provFold_pair o dep o.provides _ hdep
  exact fold_append_hasPairEdge post _ hself

/-- Sub-doc chains only add data nodes. -/
theorem mem_appendSubdocChain_nodes {st : ApSt} {x : Node} {parts : List String}
    (hx : x ∈ (appendSubdocChain st parts).g.nodes) :
    x ∈ st.g.nodes ∨ x.isData = true := by
  have := foldl_preserves
    (fun (g : Graph) (e : String × String) =>
      g.addEdgeWith (Node.data e.1) (Node.data e.2) (fun a => { a with subdoc := true }))
    (fun (g : Graph) => ∀ y ∈ g.nodes, y ∈ st.g.nodes ∨ y.isData = true)
    (fun g e hg y hy => by
      rcases mem_addEdgeWith_nodes.mp hy with h1 | h1 | h1
      · exact hg y h1
      · subst h1; exact Or.inr rfl
      · subst h1; exact Or.inr rfl)
    ((pairwiseL ((List.range parts.length).map
      (fun i => joinSlash (parts.take (i + 1))))).reverse.takeWhile
        (fun e => ¬ st.seen.contains e)) st.g (fun y hy => Or.inl hy)
  exact this x hx

theorem mem_needChainStep_nodes {st : ApSt} {x : Node} {n : Dep}
    (hx : x ∈ (needChainStep st n).g.nodes) :
    x ∈ st.g.nodes ∨ x.isData = true := by
  unfold needChainStep at hx
  split at hx
  · exact mem_appendSubdocChain_nodes hx
  · exact Or.inl hx

theorem mem_provideStep_nodes {o : Op} {st : ApSt} {x : Node} {p : Dep}
    (hx : x ∈ (provideStep o st p).g.nodes) :
    x ∈ st.g.nodes ∨ x.isData = true ∨ x = Node.op o := by
  unfold provideStep at hx
  dsimp only at hx
  rcases mem_addEdgeWith_nodes.mp hx with h1 | h1 | h1
  · revert h1
    split
    · intro h1
      rcases mem_addNode_nodes.mp h1 with h2 | h2
      · revert h2
        split
        · intro h2
          rcases mem_appendSubdocChain_nodes h2 with h3 | h3
          · exact Or.inl h3
          · exact Or.inr (Or.inl h3)
        · intro h2
          exact Or.inl h2
      · subst h2
        exact Or.inr (Or.inl rfl)
    · split
      · intro h1
        rcases mem_appendSubdocChain_nodes h1 with h3 | h3
        · exact Or.inl h3
        · exact Or.inr (Or.inl h3)
      · intro h1
        exact Or.inl h1
  · subst h1
    exact Or.inr (Or.inr rfl)
  · subst h1
    exact Or.inr (Or.inl rfl)

/-- The nodes added while appending `o` are data nodes or `Node.op o`. -/
theorem append_operation_nodes_kind {g : Graph} {o : Op} {x : Node}
    (hx : x ∈ (_append_operation g o).nodes) :
    x ∈ g.nodes ∨ x.isData = true ∨ x = Node.op o := by
  unfold _append_operation at hx
  dsimp only at hx
  refine foldl_preserves (provideStep o)
    (fun (st : ApSt) => ∀ y ∈ st.g.nodes, y ∈ g.nodes ∨ y.isData = true ∨ y = Node.op o)
    (fun st p hst y hy => ?_) o.provides
    { o.needs.foldl needChainStep ⟨g, []⟩ with
      g := o.needs.foldl (needEdgeStep o)
        ((o.needs.foldl (fun g2 n => g2.addNode (Node.data n.node))
          (o.needs.foldl needChainStep ⟨g, []⟩).g).addNode (Node.op o)) } ?_ x hx
  · rcases mem_provideStep_nodes hy with h1 | h1 | h1
    · exact hst y h1
    · exact Or.inr (Or.inl h1)
    · exact Or.inr (Or.inr h1)
  · intro y hy
    refine foldl_preserves (needEdgeStep o)
      (fun (g2 : Graph) => ∀ z ∈ g2.nodes, z ∈ g.nodes ∨ z.isData = true ∨ z = Node.op o)
      (fun g2 n hg z hz => ?_) o.needs
      ((o.needs.foldl (fun g2 n => g2.addNode (Node.data n.node))
        (o.needs.foldl needChainStep ⟨g, []⟩).g).addNode (Node.op o)) ?_ y hy
    · rcases mem_addEdgeWith_nodes.mp hz with h1 | h1 | h1
      · exact hg z h1
      · subst h1; exact Or.inr (Or.inl rfl)
      · subst h1; exact Or.inr (Or.inr rfl)
    · intro z hz
      rcases mem_addNode_nodes.mp hz with h1 | h1
      · refine foldl_preserves (fun (g2 : Graph) (n : Dep) => g2.addNode (Node.data n.node))
          (fun (g2 : Graph) => ∀ w ∈ g2.nodes, w ∈ g.nodes ∨ w.isData = true ∨ w = Node.op o)
          (fun g2 n hg w hw => ?_) o.needs
          (o.needs.foldl needChainStep ⟨g, []⟩).g ?_ z h1
        · rcases mem_addNode_nodes.mp hw with h2 | h2
          · exact hg w h2
          · subst h2; exact Or.inr (Or.inl rfl)
        · intro w hw
          refine foldl_preserves needChainStep
            (fun (st : ApSt) => ∀ v ∈ st.g.nodes, v ∈ g.nodes ∨ v.isData = true ∨ v = Node.op o)
            (fun st n hst v hv => ?_) o.needs ⟨g, []⟩ ?_ w hw
          · rcases mem_needChainStep_nodes hv with h2 | h2
            · exact hst v h2
            · exact Or.inr (Or.inl h2)
          · intro v hv
            exact Or.inl hv
      · subst h1
        exact Or.inr (Or.inr rfl)

/-- Operation nodes of the built graph come from the operations list. -/
theorem buildGraph_op_mem {ops : List Op} {o : Op}
    (h : Node.op o ∈ (buildGraph ops).nodes) : o ∈ ops := by
  suffices hgen : ∀ (l : List Op) (g : Graph),
      Node.op o ∈ (l.foldl _append_operation g).nodes → Node.op o ∈ g.nodes ∨ o ∈ l by
    rcases hgen ops {} h with h1 | h1
    · simp at h1
    · exact h1
  intro l
  induction l with
  | nil => intro g hg; exact Or.inl hg
  | cons op' rest ih =>
    intro g hg
    rw [List.foldl_cons] at hg
    rcases ih _ hg with h1 | h1
    · rcases append_operation_nodes_kind h1 with h2 | h2 | h2
      · exact Or.inl h2
      · simp [Node.isData] at h2
      · injection h2 with h2
        subst h2
        exact Or.inr (List.mem_cons_self _ _)
    · exact Or.inr (List.mem_cons_of_mem _ h1)

/-- `foldl_preserves` with membership of the step element available. -/
theorem foldl_preserves_mem {β : Type _} {α : Type _} (f : β → α → β) (P : β → Prop) :
    ∀ (l : List α) (b : β), (∀ b' e, e ∈ l → P b' → P (f b' e)) → P b → P (l.foldl f b)
  | [], _, _, hb => hb
  | e :: rest, b, hf, hb =>
    foldl_preserves_mem f P rest (f b e)
      (fun b' x hx => hf b' x (List.mem_cons_of_mem _ hx))
      (hf b e (List.mem_cons_self _ _) hb)

theorem mem_subgraphF_nodes {g : Graph} {s : Finset Node} {x : Node} :
    x ∈ (g.subgraphF s).nodes ↔ x ∈ g.nodes ∧ x ∈ s := by
  simp [Graph.subgraphF, List.mem_filter]

theorem mem_subgraphF_edges {g : Graph} {s : Finset Node} {e : Node × Node × EdgeAttrs} :
    e ∈ (g.subgraphF s).edges ↔ e ∈ g.edges ∧ e.1 ∈ s ∧ e.2.1 ∈ s := by
  simp [Graph.subgraphF, List.mem_filter]

theorem removeIsolates_edges (g : Graph) : g.removeIsolates.edges = g.edges := rfl

theorem mem_removeIsolates_nodes {g : Graph} {x : Node} :
    x ∈ g.removeIsolates.nodes ↔ x ∈ g.nodes ∧ g.isIsolate x = false := by
  simp [Graph.removeIsolates, List.mem_filter]

theorem removeEdges_nodes (g : Graph) (es : List (Node × Node)) :
    (g.removeEdges es).nodes = g.nodes := rfl

theorem mem_removeNodes_nodes {g : Graph} {ns : List Node} {x : Node} :
    x ∈ (g.removeNodes ns).nodes ↔ x ∈ g.nodes ∧ x ∉ ns := by
  simp [Graph.removeNodes, List.mem_filter]

theorem edgesClosed_subgraphF {g : Graph} {s : Finset Node} (h : g.edgesClosed) :
    (g.subgraphF s).edgesClosed := by
  intro e he
  rcases mem_subgraphF_edges.mp he with ⟨he1, hs1, hs2⟩
  rcases h e he1 with ⟨h1, h2⟩
  exact ⟨mem_subgraphF_nodes.mpr ⟨h1, hs1⟩, mem_subgraphF_nodes.mpr ⟨h2, hs2⟩⟩

theorem edgesClosed_removeIsolates {g : Graph} (h : g.edgesClosed) :
    g.removeIsolates.edgesClosed := by
  intro e he
  rw [removeIsolates_edges] at he
  rcases h e he with ⟨h1, h2⟩
  constructor
  · refine mem_removeIsolates_nodes.mpr ⟨h1, ?_⟩
    simp only [Graph.isIsolate]
    simp only [decide_not, Bool.not_eq_false', decide_eq_true_eq]
    rw [List.any_eq_true]
    exact ⟨e, he, by simp⟩
  · refine mem_removeIsolates_nodes.mpr ⟨h2, ?_⟩
    simp only [Graph.isIsolate]
    simp only [decide_not, Bool.not_eq_false', decide_eq_true_eq]
    rw [List.any_eq_true]
    exact ⟨e, he, by simp⟩

theorem nodup_subgraphF {g : Graph} {s : Finset Node} (h : g.nodes.Nodup) :
    (g.subgraphF s).nodes.Nodup := h.filter _

theorem nodup_removeIsolates {g : Graph} (h : g.nodes.Nodup) :
    g.removeIsolates.nodes.Nodup := h.filter _

theorem hasEdge_of_mem {g : Graph} {u v : Node} {a : EdgeAttrs}
    (h : (u, v, a) ∈ g.edges) : g.hasEdge u v = true := by
  unfold Graph.hasEdge
  rw [List.any_eq_true]
  exact ⟨(u, v, a), h, by simp⟩

/-! ## The ready-node order of `_topo_sort_nodes` -/

theorem pickSource_mem {g : Graph} {rem : List Node} {v : Node}
    (h : pickSource g rem = some v) : v ∈ rem :=
  List.mem_of_find?_eq_some h

theorem pickSource_no_edge {g : Graph} {rem : List Node} {v : Node}
    (h : pickSource g rem = some v) : ∀ u ∈ rem, g.hasEdge u v = false := by
  have hp := List.find?_some h
  simp only [decide_not, Bool.not_eq_true', decide_eq_false_iff_not] at hp
  rw [List.any_eq_true] at hp
  push_neg at hp
  intro u hu
  exact Bool.eq_false_iff.mpr (hp u hu)

theorem topoAux_subset {g : Graph} :
    ∀ (fuel : Nat) (rem : List Node) (x : Node), x ∈ topoAux g fuel rem → x ∈ rem := by
  intro fuel
  induction fuel with
  | zero => intro rem x h; simp [topoAux] at h
  | succ fuel ih =>
    intro rem x h
    unfold topoAux at h
    cases hp : pickSource g rem with
    | none => rw [hp] at h; simp at h
    | some v =>
      rw [hp] at h
      rcases List.mem_cons.mp h with h1 | h1
      · subst h1; exact pickSource_mem hp
      · exact List.erase_subset _ _ (ih _ x h1)

theorem topoAux_nodup {g : Graph} :
    ∀ (fuel : Nat) (rem : List Node), rem.Nodup → (topoAux g fuel rem).Nodup := by
  intro fuel
  induction fuel with
  | zero => intro rem _; simp [topoAux]
  | succ fuel ih =>
    intro rem hnd
    unfold topoAux
    cases hp : pickSource g rem with
    | none => simp
    | some v =>
      refine List.nodup_cons.mpr ⟨?_, ih _ (hnd.erase v)⟩
      intro hv
      have := topoAux_subset fuel _ v hv
      exact (hnd.mem_erase_iff.mp this).1 rfl

/-- `u` occurs before `v` in the list `l`. -/
def Before (l : List Node) (u v : Node) : Prop :=
  ∀ l1 l2, l = l1 ++ v :: l2 → u ∈ l1

theorem before_trans {l : List Node} {u v w : Node}
    (h1 : Before l u v) (h2 : Before l v w) : Before l u w := by
  intro l1 l2 hl
  rcases List.append_of_mem (h2 l1 l2 hl) with ⟨s, t, hst⟩
  have hu := h1 s (t ++ w :: l2) (by rw [hl, hst]; simp)
  rw [hst]
  exact List.mem_append_left _ hu

/-- The target of an edge is only ever emitted after its source: the
ready-node pick refuses a node with a remaining in-edge. -/
theorem topoAux_edge_before {g : Graph} {u v : Node} {a : EdgeAttrs}
    (he : (u, v, a) ∈ g.edges) :
    ∀ (fuel : Nat) (rem : List Node), u ∈ rem →
      ∀ l1 l2, topoAux g fuel rem = l1 ++ v :: l2 → u ∈ l1 := by
  intro fuel
  induction fuel with
  | zero =>
    intro rem _ l1 l2 h
    simp only [topoAux] at h
    exact absurd h.symm (List.append_ne_nil_of_right_ne_nil _ (by simp))
  | succ fuel ih =>
    intro rem hu l1 l2 h
    unfold topoAux at h
    cases hp : pickSource g rem with
    | none =>
      rw [hp] at h
      exact absurd h.symm (List.append_ne_nil_of_right_ne_nil _ (by simp))
    | some w =>
      rw [hp] at h
      cases l1 with
      | nil =>
        simp only [List.nil_append] at h
        have hwv : w = v := (List.cons_eq_cons.mp h).1
        subst hwv
        have := pickSource_no_edge hp u hu
        rw [hasEdge_of_mem he] at this
        exact absurd this (by simp)
      | cons x l1 =>
        rcases List.cons_eq_cons.mp h with ⟨hxw, hrest⟩
        subst hxw
        by_cases huw : u = w
        · subst huw; exact List.mem_cons_self _ _
        · have hu' : u ∈ rem.erase w := (List.mem_erase_of_ne huw).mpr hu
          exact List.mem_cons_of_mem _ (ih _ hu' l1 l2 hrest)

/-- Unfolding of a chain step at a present doc. -/
theorem chainNoStop_succ {g : Graph} {doc : String} (fuel : Nat) (dirs : List Dig)
    (hd : g.hasDataNode doc = true) :
    chainNoStop (fuel + 1) g dirs doc =
      doc :: dirs.flatMap (fun dir =>
        (digNext g dir doc).flatMap (fun c => chainNoStop fuel g [dir] c)) := by
  rw [chainNoStop]
  rw [if_neg (by simp [hd])]

/-- A doc yields itself at the head of its chain. -/
theorem chainNoStop_self {g : Graph} {doc : String} (fuel : Nat)
    (hd : g.hasDataNode doc = true) (dirs : List Dig) :
    doc ∈ chainNoStop (fuel + 1) g dirs doc := by
  rw [chainNoStop_succ fuel dirs hd]
  exact List.mem_cons_self _ _

/-- The step function of the `root_doc` edge scan. -/
def rootStep (acc : String) (e : Node × Node × EdgeAttrs) : String :=
  if e.2.2.subdoc then
    match e.1 with
    | .data s => s
    | .op _ => acc
  else acc

theorem rootStep_cases : ∀ (l : List (Node × Node × EdgeAttrs)) (acc : String),
    l.foldl rootStep acc = acc ∨
    ∃ e ∈ l, e.2.2.subdoc = true ∧ e.1 = Node.data (l.foldl rootStep acc) := by
  intro l
  induction l with
  | nil => intro acc; exact Or.inl rfl
  | cons e rest ih =>
    intro acc
    rw [List.foldl_cons]
    by_cases hs : e.2.2.subdoc = true
    · cases he : e.1 with
      | data s =>
        have hstep : rootStep acc e = s := by simp [rootStep, hs, he]
        rw [hstep]
        rcases ih s with h | h
        · exact Or.inr ⟨e, List.mem_cons_self _ _, hs, by rw [h, he]⟩
        · rcases h with ⟨e', he', h1, h2⟩
          exact Or.inr ⟨e', List.mem_cons_of_mem _ he', h1, h2⟩
      | op o =>
        have hstep : rootStep acc e = acc := by simp [rootStep, hs, he]
        rw [hstep]
        rcases ih acc with h | h
        · exact Or.inl h
        · rcases h with ⟨e', he', h1, h2⟩
          exact Or.inr ⟨e', List.mem_cons_of_mem _ he', h1, h2⟩
    · have hstep : rootStep acc e = acc := by
        rw [Bool.not_eq_true] at hs
        simp [rootStep, hs]
      rw [hstep]
      rcases ih acc with h | h
      · exact Or.inl h
      · rcases h with ⟨e', he', h1, h2⟩
        exact Or.inr ⟨e', List.mem_cons_of_mem _ he', h1, h2⟩

/-- `root_doc` returns the doc itself, or the source of one of its subdoc
in-edges. -/
theorem root_doc_cases (g : Graph) (doc : String) :
    root_doc g doc = doc ∨
    ∃ a, (Node.data (root_doc g doc), Node.data doc, a) ∈ g.edges ∧ a.subdoc = true := by
  rcases rootStep_cases (g.inEdges (Node.data doc)) doc with h | h
  · exact Or.inl h
  · rcases h with ⟨e, he, hs, h1⟩
    have hmem := List.mem_filter.mp he
    have h21 : e.2.1 = Node.data doc := by simpa using hmem.2
    have h1' : e.1 = Node.data (root_doc g doc) := h1
    refine Or.inr ⟨e.2.2, ?_, hs⟩
    rw [← h1', ← h21]
    exact hmem.1

/-- A doc absent from a closed graph has no in-edges, so `root_doc` is the
identity on it. -/
theorem root_doc_not_node {g : Graph} {doc : String} (hc : g.edgesClosed)
    (hd : g.hasDataNode doc = false) : root_doc g doc = doc := by
  have hin : g.inEdges (Node.data doc) = [] := by
    unfold Graph.inEdges
    rw [List.filter_eq_nil_iff]
    intro e he
    simp only [decide_eq_true_eq]
    intro h21
    have h2 := (hc e he).2
    rw [h21] at h2
    unfold Graph.hasDataNode Graph.hasNode at hd
    have h3 : List.elem (Node.data doc) g.nodes = false := hd
    rw [List.elem_eq_true_of_mem h2] at h3
    exact absurd h3 (by simp)
  unfold root_doc
  rw [hin]
  rfl

/-- On a closed graph, `root_doc` of a data node is a data node. -/
theorem root_doc_mem {g : Graph} {doc : String} (hc : g.edgesClosed)
    (hd : g.hasDataNode doc = true) : g.hasDataNode (root_doc g doc) = true := by
  rcases root_doc_cases g doc with h | h
  · rw [h]; exact hd
  · rcases h with ⟨a, hmem, _⟩
    have h1 := (hc _ hmem).1
    unfold Graph.hasDataNode Graph.hasNode
    exact List.elem_eq_true_of_mem h1

/-- `root_doc` of a need is yielded by the need's chain (first as the
superdoc neighbour, which then yields itself). -/
theorem rootDoc_mem_chain {g : Graph} {doc : String} (hc : g.edgesClosed)
    (hd : g.hasDataNode doc = true) :
    root_doc g doc ∈ chainNoStop (g.nodes.length + 1) g bothDirs doc := by
  rcases root_doc_cases g doc with h | h
  · rw [h]; exact chainNoStop_self _ hd _
  · rcases h with ⟨a, hmem, hsub⟩
    have hr : g.hasDataNode (root_doc g doc) = true := root_doc_mem hc hd
    obtain ⟨m, hm⟩ : ∃ m, g.nodes.length = m + 1 := by
      have h1 := (hc _ hmem).1
      cases hg : g.nodes with
      | nil => rw [hg] at h1; simp at h1
      | cons x rest => exact ⟨rest.length, by simp⟩
    rw [chainNoStop_succ _ _ hd]
    refine List.mem_cons_of_mem _ ?_
    rw [List.mem_flatMap]
    refine ⟨Dig.up, by simp [bothDirs], ?_⟩
    rw [List.mem_flatMap]
    refine ⟨root_doc g doc, ?_, ?_⟩
    · unfold digNext
      rw [List.mem_filterMap]
      refine ⟨(Node.data (root_doc g doc), Node.data doc, a), ?_, ?_⟩
      · unfold Graph.inEdges
        rw [List.mem_filter]
        exact ⟨hmem, by simp⟩
      · simp [hsub]
    · rw [hm]
      exact chainNoStop_self m hr _
theorem subset_predStep (g : Graph) (S : Finset Node) : S ⊆ predStep g S :=
  Finset.subset_union_left

theorem predStep_iterate_subset (g : Graph) (w : Node) :
    ∀ k, (predStep g)^[k] {w} ⊆ insert w g.nodes.toFinset := by
  intro k
  induction k with
  | zero => simp
  | succ k ih =>
    rw [Function.iterate_succ_apply']
    unfold predStep
    refine Finset.union_subset ih ?_
    intro x hx
    rw [List.mem_toFinset] at hx
    exact Finset.mem_insert_of_mem (List.mem_toFinset.mpr (List.mem_of_mem_filter hx))

theorem predStep_card_growth (g : Graph) (w : Node) :
    ∀ k, (∀ j < k, (predStep g)^[j] {w} ≠ (predStep g)^[j + 1] {w}) →
      k + 1 ≤ ((predStep g)^[k] {w}).card := by
  intro k
  induction k with
  | zero => intro _; simp
  | succ k ih =>
    intro h
    have h1 := ih (fun j hj => h j (Nat.lt_succ_of_lt hj))
    have hne := h k (Nat.lt_succ_self k)
    have hsub : (predStep g)^[k] {w} ⊆ (predStep g)^[k + 1] {w} := by
      rw [Function.iterate_succ_apply']
      exact subset_predStep g _
    have hlt := Finset.card_lt_card (Finset.ssubset_iff_subset_ne.mpr ⟨hsub, hne⟩)
    omega

theorem predStep_stable (g : Graph) (S : Finset Node) (h : predStep g S = S) :
    ∀ k, (predStep g)^[k] S = S := by
  intro k
  induction k with
  | zero => rfl
  | succ k ih => rw [Function.iterate_succ_apply', ih, h]

/-- The bounded predecessor saturation reaches its fixpoint. -/
theorem ancestors_fix (g : Graph) (w : Node) :
    predStep g (ancestors g w) = ancestors g w := by
  unfold ancestors
  by_contra hne
  by_cases hex : ∃ j < g.nodes.length, (predStep g)^[j] {w} = (predStep g)^[j + 1] {w}
  · rcases hex with ⟨j, hj, heq⟩
    have hfix : predStep g ((predStep g)^[j] {w}) = (predStep g)^[j] {w} := by
      rw [Function.iterate_succ_apply'] at heq
      exact heq.symm
    have hstab : (predStep g)^[g.nodes.length] {w} = (predStep g)^[j] {w} := by
      have hsplit : g.nodes.length = (g.nodes.length - j) + j := by omega
      rw [hsplit, Function.iterate_add_apply]
      exact predStep_stable g _ hfix _
    exact hne (by rw [hstab, hfix])
  · push_neg at hex
    have hall : ∀ j < g.nodes.length + 1, (predStep g)^[j] {w} ≠ (predStep g)^[j + 1] {w} := by
      intro j hj
      by_cases hjl : j < g.nodes.length
      · exact hex j hjl
      · have hj' : j = g.nodes.length := by omega
        subst hj'
        intro he
        rw [Function.iterate_succ_apply'] at he
        exact hne he.symm
    have hcard := predStep_card_growth g w (g.nodes.length + 1) hall
    have hbound := Finset.card_le_card (predStep_iterate_subset g w (g.nodes.length + 1))
    have hins := Finset.card_insert_le w g.nodes.toFinset
    have htf := g.nodes.toFinset_card_le
    omega

/-- The saturated set is predecessor-closed. -/
theorem ancestors_closed {g : Graph} {w u v : Node} {a : EdgeAttrs}
    (he : (u, v, a) ∈ g.edges) (hu : u ∈ g.nodes) (hv : v ∈ ancestors g w) :
    u ∈ ancestors g w := by
  rw [← ancestors_fix g w]
  unfold predStep
  refine Finset.mem_union_right _ ?_
  rw [List.mem_toFinset, List.mem_filter]
  refine ⟨hu, ?_⟩
  rw [List.any_eq_true]
  exact ⟨(u, v, a), he, by simp [hv]⟩

theorem mem_ancestors_self (g : Graph) (w : Node) : w ∈ ancestors g w := by
  have hsub : ∀ k, ({w} : Finset Node) ⊆ (predStep g)^[k] {w} := by
    intro k
    induction k with
    | zero => exact fun x hx => hx
    | succ k ih =>
      rw [Function.iterate_succ_apply']
      exact fun x hx => subset_predStep g _ (ih hx)
  exact hsub g.nodes.length (Finset.mem_singleton_self w)

/-- `endingVisit` only grows the ending set. -/
theorem endingVisit_mono {g : Graph} {x : Node} :
    ∀ (fuel : Nat) (dirs : List Dig) (E : Finset Node) (doc : String),
      x ∈ E → x ∈ endingVisit fuel g dirs E doc := by
  intro fuel
  induction fuel with
  | zero => intro dirs E doc hx; exact hx
  | succ fuel ih =>
    intro dirs E doc hx
    unfold endingVisit
    split
    · exact hx
    · split
      · exact hx
      · refine foldl_preserves _ (fun E' => x ∈ E') ?_ dirs _ ?_
        · intro E' dir hE
          exact foldl_preserves _ (fun E' => x ∈ E') (fun E'' c h => ih [dir] E'' c h) _ _ hE
        · exact Finset.mem_union_left _ (Finset.mem_union_left _ hx)

/-- `E` is closed under predecessors of its operation nodes. -/
def opInClosed (g : Graph) (E : Finset Node) : Prop :=
  ∀ (o : Op) (u : Node) (a : EdgeAttrs),
    (u, Node.op o, a) ∈ g.edges → Node.op o ∈ E → u ∈ E

theorem endingVisit_opInClosed {g : Graph} (hc : g.edgesClosed) :
    ∀ (fuel : Nat) (dirs : List Dig) (E : Finset Node) (doc : String),
      opInClosed g E → opInClosed g (endingVisit fuel g dirs E doc) := by
  intro fuel
  induction fuel with
  | zero => intro dirs E doc h; exact h
  | succ fuel ih =>
    intro dirs E doc h
    unfold endingVisit
    split
    · exact h
    · split
      · exact h
      · refine foldl_preserves _ (opInClosed g) ?_ dirs _ ?_
        · intro E' dir hE
          exact foldl_preserves _ (opInClosed g) (fun E'' c hh => ih [dir] E'' c hh) _ _ hE
        · intro o u a he ho
          rcases Finset.mem_union.mp ho with h1 | h1
          · rcases Finset.mem_union.mp h1 with h2 | h2
            · exact Finset.mem_union_left _ (Finset.mem_union_left _ (h o u a he h2))
            · exact Finset.mem_union_left _ (Finset.mem_union_right _
                (ancestors_closed he (hc _ he).1 h2))
          · rw [Finset.mem_singleton] at h1
            exact absurd h1 (by simp)

/-- The `ending_in_outputs` set is closed under predecessors of its
operation members. -/
theorem endingInOutputs_opInClosed {g : Graph} (hc : g.edgesClosed)
    (outs : List String) : opInClosed g (endingInOutputs g outs) := by
  unfold endingInOutputs
  refine foldl_preserves _ (opInClosed g) ?_ outs ∅ ?_
  · intro E doc hE
    exact endingVisit_opInClosed hc _ _ _ _ hE
  · intro o u a _ ho
    exact absurd ho (Finset.not_mem_empty _)

theorem ending_fold_mem {g : Graph} {x : String} (hd : g.hasDataNode x = true) :
    ∀ (outs : List String) (E : Finset Node), x ∈ outs →
      Node.data x ∈ outs.foldl
        (fun E doc => endingVisit (g.nodes.length + 1) g bothDirs E doc) E := by
  intro outs
  induction outs with
  | nil => intro E hx; simp at hx
  | cons o rest ih =>
    intro E hx
    rw [List.foldl_cons]
    rcases List.mem_cons.mp hx with h1 | h1
    · subst h1
      refine foldl_preserves _ (fun E' => Node.data x ∈ E') ?_ rest _ ?_
      · intro E' doc hE
        exact endingVisit_mono _ _ _ _ hE
      · unfold endingVisit
        split
        · rename_i hcond
          exact absurd hd hcond
        · split
          · rename_i h2
            exact h2
          · refine foldl_preserves _ (fun E' => Node.data x ∈ E') ?_ _ _ ?_
            · intro E' dir hE
              exact foldl_preserves _ (fun E'' => Node.data x ∈ E'')
                (fun E'' c hh => endingVisit_mono _ _ _ _ hh) _ _ hE
            · exact Finset.mem_union_right _ (Finset.mem_singleton_self _)
    · exact ih _ h1

/-- A present output name belongs to `ending_in_outputs`. -/
theorem ending_mem_out {g : Graph} {outs : List String} {x : String}
    (hx : x ∈ outs) (hd : g.hasDataNode x = true) :
    Node.data x ∈ endingInOutputs g outs := by
  unfold endingInOutputs
  exact ending_fold_mem hd outs ∅ hx

theorem visitNode_unsat_sub {g : Graph} {st : USt} {node : Node}
    (h : ∀ x ∈ st.unsat, x.isOp = true) :
    ∀ x ∈ (visitNode g st node).unsat, x.isOp = true := by
  unfold visitNode
  cases node with
  | op o =>
    dsimp only
    split
    · intro x hx
      rcases List.mem_append.mp hx with h1 | h1
      · exact h x h1
      · rw [List.mem_singleton] at h1
        subst h1
        rfl
    · split
      · exact h
      · intro x hx
        rcases List.mem_append.mp hx with h1 | h1
        · exact h x h1
        · rw [List.mem_singleton] at h1
          subst h1
          rfl
  | data d =>
    dsimp only
    split
    · exact h
    · exact h

/-- The unsatisfied list only ever holds operation nodes. -/
theorem unsat_ops_only {dag : Graph} {inputs : List String} :
    ∀ x ∈ unsatisfied_operations dag inputs, x.isOp = true := by
  unfold unsatisfied_operations
  refine foldl_preserves (visitNode dag)
    (fun st => ∀ x ∈ st.unsat, x.isOp = true) ?_ _ _ ?_
  · intro st node hst
    exact visitNode_unsat_sub hst
  · intro x hx
    simp at hx

theorem mem_prunedDag_nodes {net : Network} {predicate : Option NodePred}
    {si : List Dep} {outsD : Option (List Dep)} {insF : Option (List String)} {x : Node} :
    x ∈ (prunedDagOf net predicate si outsD insF).nodes ↔
      x ∈ net.graph.nodes ∧ x ∈ pruneS net predicate si outsD insF ∧
        (net.graph.subgraphF (pruneS net predicate si outsD insF)).isIsolate x = false := by
  unfold prunedDagOf
  rw [mem_removeIsolates_nodes, mem_subgraphF_nodes]
  tauto

theorem mem_pruneS {net : Network} {predicate : Option NodePred}
    {si : List Dep} {outsD : Option (List Dep)} {insF : Option (List String)} {x : Node} :
    x ∈ pruneS net predicate si outsD insF ↔
      x ∈ (brokenDag3 net predicate insF outsD).nodes ∧
        x ∉ unsatisfied_operations (brokenDag3 net predicate insF outsD)
          (si.map Dep.node) := by
  unfold pruneS
  rw [Finset.mem_sdiff, List.mem_toFinset, List.mem_toFinset]

theorem mem_brokenDag3_nodes_some {net : Network} {predicate : Option NodePred}
    {insF : Option (List String)} {outs : List Dep} {x : Node} :
    x ∈ (brokenDag3 net predicate insF (some outs)).nodes ↔
      x ∈ (brokenInputs net predicate insF).nodes ∧
        x ∈ endingInOutputs net.graph (outs.map Dep.node) := by
  unfold brokenDag3
  exact mem_subgraphF_nodes

theorem brokenInputs_nodes (net : Network) (predicate : Option NodePred)
    (insF : Option (List String)) :
    (brokenInputs net predicate insF).nodes = (brokenPredicated net predicate).nodes := by
  unfold brokenInputs
  cases insF with
  | none => rfl
  | some ins =>
    exact foldl_preserves
      (fun (g : Graph) (n : String) => g.removeEdges ((g.inEdges (Node.data n)).filterMap
        (fun e => if e.2.2.subdoc then none else some (e.1, e.2.1))))
      (fun (g' : Graph) => g'.nodes = (brokenPredicated net predicate).nodes)
      (fun g' n hg => by dsimp only; rw [removeEdges_nodes]; exact hg) ins _ rfl

theorem mem_brokenPredicated_data {net : Network} {predicate : Option NodePred}
    {d : String} :
    Node.data d ∈ (brokenPredicated net predicate).nodes ↔
      Node.data d ∈ net.graph.nodes := by
  unfold brokenPredicated
  cases predicate with
  | none => exact Iff.rfl
  | some p =>
    unfold _apply_graph_predicate
    rw [mem_removeNodes_nodes]
    constructor
    · exact And.left
    · intro h
      refine ⟨h, ?_⟩
      intro hmem
      rcases List.mem_filterMap.mp hmem with ⟨o, _, ho⟩
      split at ho
      · simp at ho
      · simp at ho

theorem prunedDag_closed {net : Network} {predicate : Option NodePred}
    {si : List Dep} {outsD : Option (List Dep)} {insF : Option (List String)}
    (hc : net.graph.edgesClosed) :
    (prunedDagOf net predicate si outsD insF).edgesClosed := by
  unfold prunedDagOf
  exact edgesClosed_removeIsolates (edgesClosed_subgraphF hc)

theorem prunedDag_nodup {net : Network} {predicate : Option NodePred}
    {si : List Dep} {outsD : Option (List Dep)} {insF : Option (List String)}
    (hn : net.graph.nodes.Nodup) :
    (prunedDagOf net predicate si outsD insF).nodes.Nodup := by
  unfold prunedDagOf
  exact nodup_removeIsolates (nodup_subgraphF hn)

/-- An edge of the network dag between surviving nodes survives into the
plan dag (the plan dag is the induced subgraph of the original dag). -/
theorem pruned_edge_transfer {net : Network} {predicate : Option NodePred}
    {si : List Dep} {outsD : Option (List Dep)} {insF : Option (List String)}
    {u v : Node} {a : EdgeAttrs}
    (he : (u, v, a) ∈ net.graph.edges)
    (hu : u ∈ (prunedDagOf net predicate si outsD insF).nodes)
    (hv : v ∈ (prunedDagOf net predicate si outsD insF).nodes) :
    (u, v, a) ∈ (prunedDagOf net predicate si outsD insF).edges := by
  have hu' := (mem_prunedDag_nodes.mp hu).2.1
  have hv' := (mem_prunedDag_nodes.mp hv).2.1
  unfold prunedDagOf
  rw [removeIsolates_edges]
  exact mem_subgraphF_edges.mpr ⟨he, hu', hv'⟩

/-- A compulsory or optional need of an operation surviving into the plan
dag is itself a node of the plan dag: the op is among the nodes ending in
the outputs, hence so is its need (predecessor closure), the need is not an
unsatisfied op, and the need edge keeps it non-isolated. -/
theorem pruned_need_present {net : Network} {predicate : Option NodePred}
    {si : List Dep} {outs : List Dep} {insF : Option (List String)}
    {o' : Op} {pd : String} {a : EdgeAttrs}
    (hc : net.graph.edgesClosed)
    (ho : Node.op o' ∈ (prunedDagOf net predicate si (some outs) insF).nodes)
    (he : (Node.data pd, Node.op o', a) ∈ net.graph.edges) :
    (prunedDagOf net predicate si (some outs) insF).hasDataNode pd = true := by
  have hoS := (mem_prunedDag_nodes.mp ho).2.1
  have hoB := (mem_pruneS.mp hoS).1
  have hoE := (mem_brokenDag3_nodes_some.mp hoB).2
  have hdE : Node.data pd ∈ endingInOutputs net.graph (outs.map Dep.node) :=
    endingInOutputs_opInClosed hc _ o' (Node.data pd) a he hoE
  have hdg : Node.data pd ∈ net.graph.nodes := (hc _ he).1
  have hdB : Node.data pd ∈ (brokenInputs net predicate insF).nodes := by
    rw [brokenInputs_nodes]
    exact mem_brokenPredicated_data.mpr hdg
  have hdS : Node.data pd ∈ pruneS net predicate si (some outs) insF := by
    refine mem_pruneS.mpr ⟨mem_brokenDag3_nodes_some.mpr ⟨hdB, hdE⟩, ?_⟩
    intro hmem
    have := unsat_ops_only _ hmem
    simp [Node.isOp] at this
  have hedge : (Node.data pd, Node.op o', a) ∈
      (net.graph.subgraphF (pruneS net predicate si (some outs) insF)).edges :=
    mem_subgraphF_edges.mpr ⟨he, hdS, hoS⟩
  have hiso : (net.graph.subgraphF
      (pruneS net predicate si (some outs) insF)).isIsolate (Node.data pd) = false := by
    simp only [Graph.isIsolate]
    simp only [decide_not, Bool.not_eq_false', decide_eq_true_eq]
    rw [List.any_eq_true]
    exact ⟨_, hedge, by simp⟩
  unfold Graph.hasDataNode Graph.hasNode
  exact List.elem_eq_true_of_mem (mem_prunedDag_nodes.mpr ⟨hdg, hdS, hiso⟩)

/-- A provide of a surviving operation that is itself an asked output is a
node of the plan dag: the output is in the ending set, it is no
unsatisfied op, and the provide edge keeps it non-isolated. -/
theorem pruned_out_present {net : Network} {predicate : Option NodePred}
    {si : List Dep} {outs : List Dep} {insF : Option (List String)}
    {o : Op} {pd : String} {a : EdgeAttrs}
    (hc : net.graph.edgesClosed)
    (ho : Node.op o ∈ (prunedDagOf net predicate si (some outs) insF).nodes)
    (he : (Node.op o, Node.data pd, a) ∈ net.graph.edges)
    (hout : pd ∈ outs.map Dep.node) :
    (prunedDagOf net predicate si (some outs) insF).hasDataNode pd = true := by
  have hoS := (mem_prunedDag_nodes.mp ho).2.1
  have hdg : Node.data pd ∈ net.graph.nodes := (hc _ he).2
  have hdgb : net.graph.hasDataNode pd = true := by
    unfold Graph.hasDataNode Graph.hasNode
    exact List.elem_eq_true_of_mem hdg
  have hdE : Node.data pd ∈ endingInOutputs net.graph (outs.map Dep.node) :=
    ending_mem_out hout hdgb
  have hdB : Node.data pd ∈ (brokenInputs net predicate insF).nodes := by
    rw [brokenInputs_nodes]
    exact mem_brokenPredicated_data.mpr hdg
  have hdS : Node.data pd ∈ pruneS net predicate si (some outs) insF := by
    refine mem_pruneS.mpr ⟨mem_brokenDag3_nodes_some.mpr ⟨hdB, hdE⟩, ?_⟩
    intro hmem
    have := unsat_ops_only _ hmem
    simp [Node.isOp] at this
  have hedge : (Node.op o, Node.data pd, a) ∈
      (net.graph.subgraphF (pruneS net predicate si (some outs) insF)).edges :=
    mem_subgraphF_edges.mpr ⟨he, hoS, hdS⟩
  have hiso : (net.graph.subgraphF
      (pruneS net predicate si (some outs) insF)).isIsolate (Node.data pd) = false := by
    simp only [Graph.isIsolate]
    simp only [decide_not, Bool.not_eq_false', decide_eq_true_eq]
    rw [List.any_eq_true]
    exact ⟨_, hedge, by simp⟩
  unfold Graph.hasDataNode Graph.hasNode
  exact List.elem_eq_true_of_mem (mem_prunedDag_nodes.mpr ⟨hdg, hdS, hiso⟩)

/-! ## Eviction safety of the step sequence -/

/-- What holds of an evicted name `d` against any operation `o2` scheduled
after the eviction: `d` is no asked output, no need of `o2`, and if it is a
provide of `o2` it was pruned out of the plan dag. -/
def EvictSafe (pruned : Graph) (outs : List String) (d : String) (o2 : Op) : Prop :=
  d ∉ outs ∧ (∀ dep ∈ o2.needs, dep.node ≠ d) ∧
    (∀ dep ∈ o2.provides, dep.node = d → pruned.hasDataNode d = false)

/-- Every eviction of the list is safe against every operation after it. -/
def SafeSteps (pruned : Graph) (outs : List String) (steps : List Step) : Prop :=
  ∀ s1 d s2 o2, steps = s1 ++ Step.evict d :: s2 → Step.op o2 ∈ s2 →
    EvictSafe pruned outs d o2

/-- Loop invariant of the step builder: the accumulated steps are safe
internally, and every accumulated eviction is safe against every operation
still to be processed. -/
def SafeAcc (pruned : Graph) (outs : List String) (acc : List Step)
    (rem : List Node) : Prop :=
  SafeSteps pruned outs acc ∧
    ∀ d, Step.evict d ∈ acc → ∀ o2, Node.op o2 ∈ rem → EvictSafe pruned outs d o2

theorem addEviction_cases (steps : List Step) (dep : String) :
    addEviction steps dep = steps ∨ addEviction steps dep = steps ++ [Step.evict dep] := by
  unfold addEviction
  cases h : steps.getLast? with
  | none => exact Or.inr rfl
  | some st =>
    cases st with
    | op o => exact Or.inr rfl
    | evict d =>
      by_cases hd : d = dep
      · simp [hd]
      · simp [hd]

theorem safeSteps_append_evict {pruned : Graph} {outs : List String}
    {acc : List Step} {d : String} (h1 : SafeSteps pruned outs acc) :
    SafeSteps pruned outs (acc ++ [Step.evict d]) := by
  intro s1 d' s2 o2 heq hmem
  rcases List.append_eq_append_iff.mp heq with ⟨a2, _, ha2⟩ | ⟨c2, hc1, hc2⟩
  · have hlen := congrArg List.length ha2
    simp at hlen
    have hs2 : s2 = [] := List.eq_nil_of_length_eq_zero (by omega)
    rw [hs2] at hmem
    simp at hmem
  · cases c2 with
    | nil =>
      simp at hc2
      rw [hc2.2] at hmem
      simp at hmem
    | cons x c3 =>
      rw [List.cons_append] at hc2
      rcases List.cons_eq_cons.mp hc2 with ⟨hx, hs2⟩
      rw [hs2] at hmem
      rcases List.mem_append.mp hmem with hm | hm
      · refine h1 s1 d' c3 o2 ?_ hm
        rw [hc1, ← hx]
      · simp at hm

theorem safeSteps_append_op {pruned : Graph} {outs : List String}
    {acc : List Step} {o : Op} (h1 : SafeSteps pruned outs acc)
    (h2 : ∀ d, Step.evict d ∈ acc → EvictSafe pruned outs d o) :
    SafeSteps pruned outs (acc ++ [Step.op o]) := by
  intro s1 d' s2 o2 heq hmem
  rcases List.append_eq_append_iff.mp heq with ⟨a2, _, ha2⟩ | ⟨c2, hc1, hc2⟩
  · cases a2 with
    | nil => simp at ha2
    | cons y a3 =>
      have hlen := congrArg List.length ha2
      simp at hlen
  · cases c2 with
    | nil => simp at hc2
    | cons x c3 =>
      rw [List.cons_append] at hc2
      rcases List.cons_eq_cons.mp hc2 with ⟨hx, hs2⟩
      rw [hs2] at hmem
      rcases List.mem_append.mp hmem with hm | hm
      · refine h1 s1 d' c3 o2 ?_ hm
        rw [hc1, ← hx]
      · rw [List.mem_singleton] at hm
        have ho2 : o2 = o := by
          injection hm
        have hdmem : Step.evict d' ∈ acc := by
          rw [hc1, ← hx]
          exact List.mem_append_right _ (List.mem_cons_self _ _)
        rw [ho2]
        exact h2 d' hdmem

theorem safeAcc_addEviction {pruned : Graph} {outs : List String}
    {acc : List Step} {rest : List Node} {d : String}
    (hacc : SafeAcc pruned outs acc rest)
    (hsafe : ∀ o2, Node.op o2 ∈ rest → EvictSafe pruned outs d o2) :
    SafeAcc pruned outs (addEviction acc d) rest := by
  rcases addEviction_cases acc d with h | h
  · rw [h]
    exact hacc
  · rw [h]
    refine ⟨safeSteps_append_evict hacc.1, ?_⟩
    intro d' hd' o2 ho2
    rcases List.mem_append.mp hd' with hm | hm
    · exact hacc.2 d' hm o2 ho2
    · rw [List.mem_singleton] at hm
      have : d' = d := by injection hm
      rw [this]
      exact hsafe o2 ho2

theorem stepsLoop_nil (net : Network) (pruned : Graph) (outputsC : List String)
    (acc : List Step) : stepsLoop net pruned outputsC [] acc = acc := rfl

theorem stepsLoop_data (net : Network) (pruned : Graph) (outputsC : List String)
    (dd : String) (rest : List Node) (acc : List Step) :
    stepsLoop net pruned outputsC (Node.data dd :: rest) acc =
      stepsLoop net pruned outputsC rest acc := rfl

theorem stepsLoop_op (net : Network) (pruned : Graph) (outputsC : List String)
    (o : Op) (rest : List Node) (acc : List Step) :
    stepsLoop net pruned outputsC (Node.op o :: rest) acc =
      stepsLoop net pruned outputsC rest
        ((net.graph.successors (Node.op o)).foldl (fun acc provide =>
          match provide with
          | .op _ => acc
          | .data pd =>
            if pruned.hasDataNode pd then acc
            else addEviction acc (root_doc pruned pd))
          ((pruned.predecessors (Node.op o)).foldl (fun acc need =>
            match need with
            | .op _ => acc
            | .data nd =>
              let need_chain := chainNoStop (pruned.nodes.length + 1) pruned bothDirs nd
              if need_chain.any (fun c => outputsC.contains c) then acc
              else
                let need_users := need_chain.flatMap (fun n =>
                  (pruned.outEdges (Node.data n)).filterMap (fun e =>
                    if e.2.2.subdoc then none else some e.2.1))
                if need_users.any (fun u => rest.contains u) then acc
                else addEviction acc (root_doc pruned nd)) (acc ++ [Step.op o]))) := rfl

/-- Safety of a rule-E1 eviction: the need's root doc is no asked output
(its chain guard), no need of a later operation (its users guard), and no
provide of a later operation (the topological order forbids it). -/
theorem evictSafe_E1 {net : Network} {pruned : Graph} {outputsC outs : List String}
    {ordered done rest : List Node} {o : Op} {nd : String}
    (hnodup : ordered.Nodup)
    (hord : ordered = done ++ Node.op o :: rest)
    (hclosed : pruned.edgesClosed)
    (hEdgeBefore : ∀ u v a, (u, v, a) ∈ pruned.edges → Before ordered u v)
    (hEdgeSub : ∀ u v a, (u, v, a) ∈ net.graph.edges → u ∈ pruned.nodes →
      v ∈ pruned.nodes → (u, v, a) ∈ pruned.edges)
    (hNE : ∀ (o2 : Op) (dep : Dep), Node.op o2 ∈ pruned.nodes → dep ∈ o2.needs →
      ∃ a, (Node.data dep.node, Node.op o2, a) ∈ net.graph.edges ∧ a.subdoc = false)
    (hPE : ∀ (o2 : Op) (dep : Dep), Node.op o2 ∈ pruned.nodes → dep ∈ o2.provides →
      ∃ a, (Node.op o2, Node.data dep.node, a) ∈ net.graph.edges)
    (hOC : ∀ x ∈ outs, pruned.hasDataNode x = true → x ∈ outputsC)
    (hsub : ∀ n ∈ ordered, n ∈ pruned.nodes)
    (hpred : Node.data nd ∈ pruned.predecessors (Node.op o))
    (hg1 : (chainNoStop (pruned.nodes.length + 1) pruned bothDirs nd).any
      (fun c => outputsC.contains c) = false)
    (hg2 : ((chainNoStop (pruned.nodes.length + 1) pruned bothDirs nd).flatMap (fun n =>
      (pruned.outEdges (Node.data n)).filterMap (fun e =>
        if e.2.2.subdoc then none else some e.2.1))).any
      (fun u => rest.contains u) = false)
    {o2 : Op} (ho2 : Node.op o2 ∈ rest) :
    EvictSafe pruned outs (root_doc pruned nd) o2 := by
  have ho2ord : Node.op o2 ∈ ordered := by
    rw [hord]
    exact List.mem_append_right _ (List.mem_cons_of_mem _ ho2)
  have ho2p : Node.op o2 ∈ pruned.nodes := hsub _ ho2ord
  unfold Graph.predecessors at hpred
  rcases List.mem_map.mp hpred with ⟨e, he, he1⟩
  have hef := List.mem_filter.mp he
  have he21 : e.2.1 = Node.op o := by simpa using hef.2
  have hndm : Node.data nd ∈ pruned.nodes := by
    have h1 := (hclosed e hef.1).1
    rw [he1] at h1
    exact h1
  have hndD : pruned.hasDataNode nd = true := by
    unfold Graph.hasDataNode Graph.hasNode
    exact List.elem_eq_true_of_mem hndm
  have hdD : pruned.hasDataNode (root_doc pruned nd) = true := root_doc_mem hclosed hndD
  have hdm : Node.data (root_doc pruned nd) ∈ pruned.nodes := by
    unfold Graph.hasDataNode Graph.hasNode at hdD
    exact List.mem_of_elem_eq_true hdD
  have hchain : root_doc pruned nd ∈ chainNoStop (pruned.nodes.length + 1) pruned bothDirs nd :=
    rootDoc_mem_chain hclosed hndD
  refine ⟨?_, ?_, ?_⟩
  · intro hout
    have hmemC := hOC _ hout hdD
    have hany : (chainNoStop (pruned.nodes.length + 1) pruned bothDirs nd).any
        (fun c => outputsC.contains c) = true := by
      rw [List.any_eq_true]
      exact ⟨_, hchain, List.elem_eq_true_of_mem hmemC⟩
    rw [hg1] at hany
    exact absurd hany (by simp)
  · intro dep hdep hne
    rcases hNE o2 dep ho2p hdep with ⟨a, haE, hasub⟩
    rw [hne] at haE
    have hin : (Node.data (root_doc pruned nd), Node.op o2, a) ∈ pruned.edges :=
      hEdgeSub _ _ _ haE hdm ho2p
    have husers : Node.op o2 ∈ (chainNoStop (pruned.nodes.length + 1) pruned
        bothDirs nd).flatMap (fun n =>
      (pruned.outEdges (Node.data n)).filterMap (fun e =>
        if e.2.2.subdoc then none else some e.2.1)) := by
      rw [List.mem_flatMap]
      refine ⟨root_doc pruned nd, hchain, ?_⟩
      rw [List.mem_filterMap]
      refine ⟨(Node.data (root_doc pruned nd), Node.op o2, a), ?_, ?_⟩
      · unfold Graph.outEdges
        rw [List.mem_filter]
        exact ⟨hin, by simp⟩
      · simp [hasub]
    have hany : ((chainNoStop (pruned.nodes.length + 1) pruned bothDirs nd).flatMap (fun n =>
      (pruned.outEdges (Node.data n)).filterMap (fun e =>
        if e.2.2.subdoc then none else some e.2.1))).any
        (fun u => rest.contains u) = true := by
      rw [List.any_eq_true]
      exact ⟨_, husers, List.elem_eq_true_of_mem ho2⟩
    rw [hg2] at hany
    exact absurd hany (by simp)
  · intro dep hdep hne
    exfalso
    rcases hPE o2 dep ho2p hdep with ⟨a, haE⟩
    rw [hne] at haE
    have hinP : (Node.op o2, Node.data (root_doc pruned nd), a) ∈ pruned.edges :=
      hEdgeSub _ _ _ haE ho2p hdm
    have hB1 : Before ordered (Node.op o2) (Node.data (root_doc pruned nd)) :=
      hEdgeBefore _ _ _ hinP
    have heRebuilt : (Node.data nd, Node.op o, e.2.2) ∈ pruned.edges := by
      rw [← he1, ← he21]
      exact hef.1
    have hB3 : Before ordered (Node.data nd) (Node.op o) := hEdgeBefore _ _ _ heRebuilt
    have hB2 : Before ordered (Node.data (root_doc pruned nd)) (Node.op o) := by
      rcases root_doc_cases pruned nd with hdd | ⟨a2, ha2, _⟩
      · rw [hdd]
        exact hB3
      · exact before_trans (hEdgeBefore _ _ _ ha2) hB3
    have hBfull : Before ordered (Node.op o2) (Node.op o) := before_trans hB1 hB2
    have hmem_done : Node.op o2 ∈ done := hBfull done rest hord
    rw [hord] at hnodup
    have hdisj := (List.nodup_append.mp hnodup).2.2
    exact hdisj hmem_done (List.mem_cons_of_mem _ ho2)

/-- Safety of a rule-E2 eviction: the pruned provide is itself the evicted
name; it is no asked output and no need of any surviving operation, and by
construction it is absent from the plan dag. -/
theorem evictSafe_E2 {net : Network} {pruned : Graph} {outs : List String}
    {o : Op} {pd : String}
    (hclosed : pruned.edgesClosed)
    (hNE : ∀ (o2 : Op) (dep : Dep), Node.op o2 ∈ pruned.nodes → dep ∈ o2.needs →
      ∃ a, (Node.data dep.node, Node.op o2, a) ∈ net.graph.edges ∧ a.subdoc = false)
    (hNeedSafe2 : ∀ (o2 : Op) (pd2 : String) (a : EdgeAttrs), Node.op o2 ∈ pruned.nodes →
      (Node.data pd2, Node.op o2, a) ∈ net.graph.edges →
      pruned.hasDataNode pd2 = true)
    (hProvSafe2 : ∀ (o2 : Op) (pd2 : String) (a : EdgeAttrs), Node.op o2 ∈ pruned.nodes →
      (Node.op o2, Node.data pd2, a) ∈ net.graph.edges → pd2 ∈ outs →
      pruned.hasDataNode pd2 = true)
    (homem : Node.op o ∈ pruned.nodes)
    (hsucc : Node.data pd ∈ net.graph.successors (Node.op o))
    (hnd : pruned.hasDataNode pd = false)
    {o2 : Op} (ho2m : Node.op o2 ∈ pruned.nodes) :
    EvictSafe pruned outs (root_doc pruned pd) o2 := by
  have hroot : root_doc pruned pd = pd := root_doc_not_node hclosed hnd
  rw [hroot]
  unfold Graph.successors at hsucc
  rcases List.mem_map.mp hsucc with ⟨e, he, he21⟩
  have hef := List.mem_filter.mp he
  have he1 : e.1 = Node.op o := by simpa using hef.2
  have heRebuilt : (Node.op o, Node.data pd, e.2.2) ∈ net.graph.edges := by
    rw [← he1, ← he21]
    exact hef.1
  refine ⟨?_, ?_, ?_⟩
  · intro hout
    have := hProvSafe2 o pd e.2.2 homem heRebuilt hout
    rw [hnd] at this
    exact absurd this (by simp)
  · intro dep hdep hne
    rcases hNE o2 dep ho2m hdep with ⟨a2, haE, _⟩
    rw [hne] at haE
    have := hNeedSafe2 o2 pd a2 ho2m haE
    rw [hnd] at this
    exact absurd this (by simp)
  · intro dep _ _
    exact hnd

/-- The rule-E1 eviction fold preserves the safety invariant. -/
theorem foldE1_safe {net : Network} {pruned : Graph} {outputsC outs : List String}
    {ordered done rest : List Node} {o : Op} {acc : List Step}
    (hnodup : ordered.Nodup)
    (hord : ordered = done ++ Node.op o :: rest)
    (hclosed : pruned.edgesClosed)
    (hEdgeBefore : ∀ u v a, (u, v, a) ∈ pruned.edges → Before ordered u v)
    (hEdgeSub : ∀ u v a, (u, v, a) ∈ net.graph.edges → u ∈ pruned.nodes →
      v ∈ pruned.nodes → (u, v, a) ∈ pruned.edges)
    (hNE : ∀ (o2 : Op) (dep : Dep), Node.op o2 ∈ pruned.nodes → dep ∈ o2.needs →
      ∃ a, (Node.data dep.node, Node.op o2, a) ∈ net.graph.edges ∧ a.subdoc = false)
    (hPE : ∀ (o2 : Op) (dep : Dep), Node.op o2 ∈ pruned.nodes → dep ∈ o2.provides →
      ∃ a, (Node.op o2, Node.data dep.node, a) ∈ net.graph.edges)
    (hOC : ∀ x ∈ outs, pruned.hasDataNode x = true → x ∈ outputsC)
    (hsub : ∀ n ∈ ordered, n ∈ pruned.nodes)
    (hacc : SafeAcc pruned outs acc rest) :
    SafeAcc pruned outs
      ((pruned.predecessors (Node.op o)).foldl (fun acc need =>
        match need with
        | .op _ => acc
        | .data nd =>
          let need_chain := chainNoStop (pruned.nodes.length + 1) pruned bothDirs nd
          if need_chain.any (fun c => outputsC.contains c) then acc
          else
            let need_users := need_chain.flatMap (fun n =>
              (pruned.outEdges (Node.data n)).filterMap (fun e =>
                if e.2.2.subdoc then none else some e.2.1))
            if need_users.any (fun u => rest.contains u) then acc
            else addEviction acc (root_doc pruned nd)) acc) rest := by
  refine foldl_preserves_mem _ (fun acc' => SafeAcc pruned outs acc' rest)
    (pruned.predecessors (Node.op o)) acc ?_ hacc
  intro acc' need hneed hacc'
  cases need with
  | op _ => exact hacc'
  | data nd =>
    dsimp only
    split
    · exact hacc'
    · split
      · exact hacc'
      · rename_i hg1 hg2
        refine safeAcc_addEviction hacc' ?_
        intro o2 ho2
        exact evictSafe_E1 hnodup hord hclosed hEdgeBefore hEdgeSub hNE hPE hOC hsub hneed
          (Bool.eq_false_iff.mpr hg1) (Bool.eq_false_iff.mpr hg2) ho2

/-- The rule-E2 eviction fold preserves the safety invariant. -/
theorem foldE2_safe {net : Network} {pruned : Graph} {outs : List String}
    {ordered done rest : List Node} {o : Op} {acc : List Step}
    (hord : ordered = done ++ Node.op o :: rest)
    (hclosed : pruned.edgesClosed)
    (hNE : ∀ (o2 : Op) (dep : Dep), Node.op o2 ∈ pruned.nodes → dep ∈ o2.needs →
      ∃ a, (Node.data dep.node, Node.op o2, a) ∈ net.graph.edges ∧ a.subdoc = false)
    (hNeedSafe2 : ∀ (o2 : Op) (pd2 : String) (a : EdgeAttrs), Node.op o2 ∈ pruned.nodes →
      (Node.data pd2, Node.op o2, a) ∈ net.graph.edges → pruned.hasDataNode pd2 = true)
    (hProvSafe2 : ∀ (o2 : Op) (pd2 : String) (a : EdgeAttrs), Node.op o2 ∈ pruned.nodes →
      (Node.op o2, Node.data pd2, a) ∈ net.graph.edges → pd2 ∈ outs →
      pruned.hasDataNode pd2 = true)
    (hsub : ∀ n ∈ ordered, n ∈ pruned.nodes)
    (hacc : SafeAcc pruned outs acc rest) :
    SafeAcc pruned outs
      ((net.graph.successors (Node.op o)).foldl (fun acc provide =>
        match provide with
        | .op _ => acc
        | .data pd =>
          if pruned.hasDataNode pd then acc
          else addEviction acc (root_doc pruned pd)) acc) rest := by
  refine foldl_preserves_mem _ (fun acc' => SafeAcc pruned outs acc' rest)
    (net.graph.successors (Node.op o)) acc ?_ hacc
  intro acc' provide hprov hacc'
  cases provide with
  | op _ => exact hacc'
  | data pd =>
    dsimp only
    split
    · exact hacc'
    · rename_i hnd
      refine safeAcc_addEviction hacc' ?_
      intro o2 ho2
      have ho2m : Node.op o2 ∈ pruned.nodes := hsub _ (by
        rw [hord]
        exact List.mem_append_right _ (List.mem_cons_of_mem _ ho2))
      have homem : Node.op o ∈ pruned.nodes := hsub _ (by
        rw [hord]
        exact List.mem_append_right _ (List.mem_cons_self _ _))
      exact evictSafe_E2 hclosed hNE hNeedSafe2 hProvSafe2 homem hprov
        (Bool.eq_false_iff.mpr hnd) ho2m

/-- The step-builder loop yields an eviction-safe step list when started
with a safe accumulator. -/
theorem stepsLoop_safe {net : Network} {pruned : Graph} {outputsC outs : List String}
    {ordered : List Node}
    (hnodup : ordered.Nodup)
    (hsub : ∀ n ∈ ordered, n ∈ pruned.nodes)
    (hclosed : pruned.edgesClosed)
    (hEdgeBefore : ∀ u v a, (u, v, a) ∈ pruned.edges → Before ordered u v)
    (hEdgeSub : ∀ u v a, (u, v, a) ∈ net.graph.edges → u ∈ pruned.nodes →
      v ∈ pruned.nodes → (u, v, a) ∈ pruned.edges)
    (hNE : ∀ (o2 : Op) (dep : Dep), Node.op o2 ∈ pruned.nodes → dep ∈ o2.needs →
      ∃ a, (Node.data dep.node, Node.op o2, a) ∈ net.graph.edges ∧ a.subdoc = false)
    (hPE : ∀ (o2 : Op) (dep : Dep), Node.op o2 ∈ pruned.nodes → dep ∈ o2.provides →
      ∃ a, (Node.op o2, Node.data dep.node, a) ∈ net.graph.edges)
    (hNeedSafe2 : ∀ (o2 : Op) (pd2 : String) (a : EdgeAttrs), Node.op o2 ∈ pruned.nodes →
      (Node.data pd2, Node.op o2, a) ∈ net.graph.edges → pruned.hasDataNode pd2 = true)
    (hProvSafe2 : ∀ (o2 : Op) (pd2 : String) (a : EdgeAttrs), Node.op o2 ∈ pruned.nodes →
      (Node.op o2, Node.data pd2, a) ∈ net.graph.edges → pd2 ∈ outs →
      pruned.hasDataNode pd2 = true)
    (hOC : ∀ x ∈ outs, pruned.hasDataNode x = true → x ∈ outputsC) :
    ∀ (rem done : List Node) (acc : List Step),
      ordered = done ++ rem →
      SafeAcc pruned outs acc rem →
      SafeSteps pruned outs (stepsLoop net pruned outputsC rem acc) := by
  intro rem
  induction rem with
  | nil =>
    intro done acc _ hacc
    rw [stepsLoop_nil]
    exact hacc.1
  | cons node rest ih =>
    intro done acc hord hacc
    cases node with
    | data dd =>
      rw [stepsLoop_data]
      refine ih (done ++ [Node.data dd]) acc (by rw [hord]; simp) ⟨hacc.1, ?_⟩
      intro d hd o2 ho2
      exact hacc.2 d hd o2 (List.mem_cons_of_mem _ ho2)
    | op o =>
      rw [stepsLoop_op]
      have hacc1 : SafeAcc pruned outs (acc ++ [Step.op o]) rest := by
        refine ⟨safeSteps_append_op hacc.1
          (fun d hd => hacc.2 d hd o (List.mem_cons_self _ _)), ?_⟩
        intro d hd o2 ho2
        rcases List.mem_append.mp hd with hm | hm
        · exact hacc.2 d hm o2 (List.mem_cons_of_mem _ ho2)
        · simp at hm
      exact ih (done ++ [Node.op o]) _ (by rw [hord]; simp)
        (foldE2_safe hord hclosed hNE hNeedSafe2 hProvSafe2 hsub
          (foldE1_safe hnodup hord hclosed hEdgeBefore hEdgeSub hNE hPE hOC hsub hacc1))

theorem sortStrings_ne_nil {l : List String} (h : l ≠ []) : sortStrings l ≠ [] := by
  cases l with
  | nil => exact absurd rfl h
  | cons x rest =>
    intro hs
    have hx := (mem_sortStrings x (x :: rest)).mpr (List.mem_cons_self _ _)
    rw [hs] at hx
    simp at hx

theorem map_mkdep_node (l : List String) :
    (l.map (fun s => ({ name := s } : Dep))).map Dep.node = l := by
  rw [List.map_map]
  have h : (Dep.node ∘ fun s => ({ name := s } : Dep)) = id := by
    funext s
    simp [Dep.node]
  rw [h, List.map_id]

/-- Positional reading of `SafeSteps`. -/
theorem safeSteps_getq {pruned : Graph} {outs : List String} {steps : List Step}
    (h : SafeSteps pruned outs steps) {i j : Nat} {d : String} {o2 : Op}
    (hij : i < j) (hi : steps[i]? = some (Step.evict d))
    (hj : steps[j]? = some (Step.op o2)) : EvictSafe pruned outs d o2 := by
  have hilen : i < steps.length := by
    by_contra hle
    rw [List.getElem?_eq_none (by omega)] at hi
    simp at hi
  have hival : steps[i] = Step.evict d := by
    rw [List.getElem?_eq_getElem hilen] at hi
    exact Option.some.inj hi
  have hdec : steps = steps.take i ++ Step.evict d :: steps.drop (i + 1) := by
    conv_lhs => rw [← List.take_append_drop i steps]
    congr 1
    rw [List.drop_eq_getElem_cons hilen, hival]
  have harith : i + 1 + (j - (i + 1)) = j := by omega
  have hmem : Step.op o2 ∈ steps.drop (i + 1) := by
    have hidx : (steps.drop (i + 1))[j - (i + 1)]? = some (Step.op o2) := by
      rw [List.getElem?_drop, harith]
      exact hj
    exact List.getElem?_mem hidx
  exact h _ d _ o2 hdec hmem

theorem build_execution_steps_evict_eq (net : Network) (pruned : Graph)
    (outputs : List String) (h : outputs.isEmpty = false) :
    _build_execution_steps net false pruned outputs =
      stepsLoop net pruned
        (outputs.flatMap (chainNoStop (pruned.nodes.length + 1) pruned bothDirs))
        (_topo_sort_nodes pruned) [] := by
  unfold _build_execution_steps
  simp [h]

/-- Every step list built by the sequencer for a plan with asked outputs is
eviction-safe. -/
theorem build_execution_steps_safe {net : Network} {predicate : Option NodePred}
    {si : List Dep} {outsD : List Dep} {insF : Option (List String)}
    {outputs : List String}
    (hc : net.graph.edgesClosed) (hn : net.graph.nodes.Nodup)
    (hNEg : ∀ (o2 : Op) (dep : Dep), Node.op o2 ∈ net.graph.nodes → dep ∈ o2.needs →
      ∃ a, (Node.data dep.node, Node.op o2, a) ∈ net.graph.edges ∧ a.subdoc = false)
    (hPEg : ∀ (o2 : Op) (dep : Dep), Node.op o2 ∈ net.graph.nodes → dep ∈ o2.provides →
      ∃ a, (Node.op o2, Node.data dep.node, a) ∈ net.graph.edges)
    (houts : outputs.isEmpty = false)
    (houtmap : outsD.map Dep.node = outputs) :
    SafeSteps (prunedDagOf net predicate si (some outsD) insF) outputs
      (_build_execution_steps net false
        (prunedDagOf net predicate si (some outsD) insF) outputs) := by
  rw [build_execution_steps_evict_eq _ _ _ houts]
  have hpc : (prunedDagOf net predicate si (some outsD) insF).edgesClosed :=
    prunedDag_closed hc
  refine stepsLoop_safe ?_ ?_ hpc ?_ ?_ ?_ ?_ ?_ ?_ ?_ _ [] []
    (List.nil_append _).symm ⟨?_, ?_⟩
  · unfold _topo_sort_nodes
    exact topoAux_nodup _ _ (prunedDag_nodup hn)
  · intro n hn2
    unfold _topo_sort_nodes at hn2
    exact topoAux_subset _ _ _ hn2
  · intro u v a he l1 l2 hl
    exact topoAux_edge_before he _ _ ((hpc _ he).1) l1 l2 hl
  · exact fun u v a he hu hv => pruned_edge_transfer he hu hv
  · intro o2 dep hm hdep
    exact hNEg o2 dep (mem_prunedDag_nodes.mp hm).1 hdep
  · intro o2 dep hm hdep
    exact hPEg o2 dep (mem_prunedDag_nodes.mp hm).1 hdep
  · intro o2 pd2 a hm he
    exact pruned_need_present hc hm he
  · intro o2 pd2 a hm he hout
    refine pruned_out_present hc hm he ?_
    rw [houtmap]
    exact hout
  · intro x hx hd
    rw [List.mem_flatMap]
    exact ⟨x, hx, chainNoStop_self _ hd _⟩
  · intro s1 d s2 o2 heq hmem
    simp at heq
  · intro d hd
    simp at hd

/-- C1 (amended): for a network built from operations and a fresh compile
with non-empty asked outputs and evictions enabled, every eviction step of
the resulting plan is safe against every later operation step: the evicted
name is not among the asked outputs and is not a need of any later
operation; and if it is a provide of a later operation, it is a name
pruned out of the plan dag (a rule-E2 re-eviction), not a value the later
operation will still compute into the plan. -/
theorem compile_eviction_safety (ops : List Op) (net : Network)
    (inputs : Option (List String)) (outs : List String) (predicate : Option NodePred)
    (plan : ExecutionPlan) (i j : Nat) (d : String) (o2 : Op)
    (hmk : Network.make ops = Except.ok net)
    (houts : outs ≠ [])
    (hcomp : (net.compile false inputs (some outs) predicate).1 = Except.ok plan)
    (hij : i < j)
    (hi : plan.steps[i]? = some (Step.evict d))
    (hj : plan.steps[j]? = some (Step.op o2)) :
    d ∉ outs ∧ (∀ dep ∈ o2.needs, dep.node ≠ d) ∧
      (∀ dep ∈ o2.provides, dep.node = d → plan.dag.hasDataNode d = false) := by
  unfold Network.make at hmk
  by_cases hnodup : (ops.map Op.name).Nodup
  case neg =>
    rw [if_neg hnodup] at hmk
    simp at hmk
  rw [if_pos hnodup] at hmk
  have hrec := Except.ok.inj hmk
  have hgraph : net.graph = buildGraph ops := by rw [← hrec]
  have hcache : net.cache = [] := by rw [← hrec]
  unfold Network.compile at hcomp
  dsimp only at hcomp
  simp only [Option.map_some'] at hcomp
  rw [hcache] at hcomp
  simp only [List.find?_nil, Option.map_none'] at hcomp
  cases hpr : pruneGraph net (inputs.map sortStrings) (some (sortStrings outs)) predicate with
  | error e =>
    rw [hpr] at hcomp
    simp at hcomp
  | ok t =>
    obtain ⟨pdag, needsR, provR⟩ := t
    rw [hpr] at hcomp
    dsimp only at hcomp
    have hplan := Except.ok.inj hcomp
    have hsteps : plan.steps = _build_execution_steps net false pdag (sortStrings outs) := by
      rw [← hplan]
      rfl
    have hdag : plan.dag = pdag := by
      rw [← hplan]
    have hcore : ∃ (si : List Dep) (insF : Option (List String)),
        pruneCore net predicate si
          (some ((sortStrings outs).map (fun s => ({ name := s } : Dep)))) insF =
          (pdag, needsR, provR) := by
      cases inputs with
      | none =>
        unfold pruneGraph at hpr
        simp only [Option.map_none'] at hpr
        rw [if_pos (sortStrings_ne_nil houts)] at hpr
        split at hpr
        · simp at hpr
        · exact ⟨_, _, Except.ok.inj hpr⟩
      | some ins =>
        unfold pruneGraph at hpr
        simp only [Option.map_some'] at hpr
        rw [if_pos (sortStrings_ne_nil houts)] at hpr
        split at hpr
        · simp at hpr
        · exact ⟨_, _, Except.ok.inj hpr⟩
    obtain ⟨si, insF, hcore⟩ := hcore
    have hpdag : prunedDagOf net predicate si
        (some ((sortStrings outs).map (fun s => ({ name := s } : Dep)))) insF = pdag :=
      congrArg Prod.fst hcore
    have hc : net.graph.edgesClosed := by
      rw [hgraph]
      exact buildGraph_closed ops
    have hn : net.graph.nodes.Nodup := by
      rw [hgraph]
      exact buildGraph_nodup ops
    have hNEg : ∀ (o3 : Op) (dep : Dep), Node.op o3 ∈ net.graph.nodes → dep ∈ o3.needs →
        ∃ a, (Node.data dep.node, Node.op o3, a) ∈ net.graph.edges ∧ a.subdoc = false := by
      intro o3 dep hm hdep
      rw [hgraph] at hm ⊢
      exact buildGraph_need_edge hnodup (buildGraph_op_mem hm) hdep
    have hPEg : ∀ (o3 : Op) (dep : Dep), Node.op o3 ∈ net.graph.nodes → dep ∈ o3.provides →
        ∃ a, (Node.op o3, Node.data dep.node, a) ∈ net.graph.edges := by
      intro o3 dep hm hdep
      rw [hgraph] at hm ⊢
      exact buildGraph_provide_edge (buildGraph_op_mem hm) hdep
    have houtE : (sortStrings outs).isEmpty = false := by
      cases hq : sortStrings outs with
      | nil => exact absurd hq (sortStrings_ne_nil houts)
      | cons a t => rfl
    have hsafe : SafeSteps pdag (sortStrings outs) plan.steps := by
      rw [hsteps, ← hpdag]
      exact build_execution_steps_safe hc hn hNEg hPEg houtE (map_mkdep_node _)
    have hES := safeSteps_getq hsafe hij hi hj
    refine ⟨?_, hES.2.1, ?_⟩
    · intro hd
      exact hES.1 ((mem_sortStrings d outs).mpr hd)
    · intro dep hdep hnd
      rw [hdag]
      exact hES.2.2 dep hdep hnd

/-- A two-operation network: `opA(x) -> a, p` and `opB(a) -> y, p`. -/
def opA : Op :=
  { name := "opA", needs := [{ name := "x" }],
    provides := [{ name := "a" }, { name := "p" }] }

def opB : Op :=
  { name := "opB", needs := [{ name := "a" }],
    provides := [{ name := "y" }, { name := "p" }] }

def netAB : Network :=
  match Network.make [opA, opB] with
  | .ok n => n
  | .error _ => { graph := emptyGraph, needs := [], provides := [] }

def planAB : ExecutionPlan :=
  match (Network.compile netAB false (some ["x"]) (some ["y"]) none).1 with
  | .ok pl => pl
  | .error _ => ⟨[], [], emptyGraph, [], false⟩

/-- C1 counterexample to the claim as stated: compiling `[opA, opB]` with
inputs `["x"]` and asked outputs `["y"]` produces the steps
`[opA, evict x, evict p, opB, evict a, evict p]`; the eviction of `"p"` at
position 2 precedes the operation step `opB` at position 3, yet `"p"` is
among `opB`'s provides (the sequencer re-evicts a provide that was pruned
out of the plan dag, logged as "Re-evicting pruned"), so an eviction may
precede an operation that has the evicted name among its provides. -/
theorem compile_eviction_provides_counterexample :
    ((Network.compile netAB false (some ["x"]) (some ["y"]) none).1.toOption.map
        (fun pl => pl.steps)) =
      some [Step.op opA, Step.evict "x", Step.evict "p", Step.op opB,
        Step.evict "a", Step.evict "p"] ∧
      (2 : Nat) < 3 ∧ "p" ∈ opB.provides.map Dep.node := by
  refine ⟨by decide, by decide, by decide⟩

/-- C1 witness: the amended safety holds on the same plan at the critical
pair (the eviction of `"p"` at position 2 against `opB` at position 3):
`"p"` is no asked output, no need of `opB`, and as a provide of `opB` it
is indeed absent from the plan dag. -/
theorem compile_eviction_safety_witness :
    "p" ∉ ["y"] ∧ (∀ dep ∈ opB.needs, dep.node ≠ "p") ∧
      (∀ dep ∈ opB.provides, dep.node = "p" → planAB.dag.hasDataNode "p" = false) :=
  compile_eviction_safety [opA, opB] netAB (some ["x"]) ["y"] none planAB 2 3 "p" opB
    rfl (by decide) rfl (by decide) rfl rfl

end Graphtik
